import Mathlib

/-!
Shallow embedding of `go/vrp/vrp.go` (value range analysis on SSI form).

Go interface values of type `Numeric` are either `Infinity{negative}` or
`Number{*big.Int}`; we embed them as an inductive over `ℤ`.  Panics in the
Go code are embedded as `Option`/`none`.  IR values are identified by
natural numbers; the maps of `constraintGraph` become total functions.
-/

namespace Vrp

/-- Embeds the Go `Numeric` interface: `Infinity{negative}` or `Number{*big.Int}`. -/
inductive Numeric where
  | inf (negative : Bool)
  | num (z : ℤ)
deriving DecidableEq

/-- `var Inf Numeric = Infinity{}` -/
def Inf : Numeric := .inf false

/-- `var NegInf Numeric = Infinity{negative: true}` -/
def NegInf : Numeric := .inf true

/-- `big.Int.Cmp`: -1, 0 or +1. -/
def intCmp (a b : ℤ) : ℤ :=
  if a < b then -1 else if a = b then 0 else 1

/-- `func Cmp(x, y Numeric) int` from vrp.go.  The leading `x == y` interface
comparison in the Go code only ever returns 0 when the case analysis below
would as well, so it is absorbed by the cases. -/
def Cmp : Numeric → Numeric → ℤ
  | .inf a, .inf b => if a = b then 0 else if a then -1 else 1
  | .inf a, .num _ => if a then -1 else 1
  | .num _, .inf b => if b then 1 else -1
  | .num x, .num y => intCmp x y

/-- `Negative()` on `Numeric`: for `Number`, `Sign() == -1`. -/
def Numeric.Negative : Numeric → Bool
  | .inf n => n
  | .num z => z < 0

/-- `func Add(x, y Numeric) Numeric` from vrp.go.  `none` is the
`panic("-∞ + y is not defined")` taken whenever the first operand is `-∞`.
In the finite case the Go code runs `out := big.NewInt(0);
out = nx.Number.Add(out, ny.Number)`, whose receiver is `nx.Number`, so the
returned value is `0 + y` (and `x`'s storage is clobbered with it). -/
def Add : Numeric → Numeric → Option Numeric
  | .inf a, _ => if a then none else some (.inf a)
  | _, .inf b => some (.inf b)
  | .num _, .num y => some (.num (0 + y))

/-- Embeds the Go `Interval` struct.  `NewInterval(nil, nil)` is `undefined`;
an interval with exactly one `nil` endpoint panics in Go and is
unrepresentable here. -/
inductive Interval where
  | undefined
  | mk (lower upper : Numeric)
deriving DecidableEq

/-- `var Empty = NewInterval(Inf, NegInf)` -/
def EmptyInterval : Interval := .mk Inf NegInf

/-- `func (ival Interval) Undefined() bool` -/
def Interval.Undefined : Interval → Bool
  | .undefined => true
  | .mk _ _ => false

/-- `func (ival Interval) Empty() bool` -/
def Interval.Empty : Interval → Bool
  | .undefined => false
  | .mk l u => Cmp u l = -1

/-- `func (ival Interval) Union(oval Interval) Interval` -/
def Interval.Union (ival oval : Interval) : Interval :=
  if ival.Empty then oval
  else if oval.Empty then ival
  else
    match ival, oval with
    | .undefined, _ => oval
    | _, .undefined => ival
    | .mk il iu, .mk ol ou =>
      .mk (if Cmp il ol = -1 then il else ol) (if Cmp iu ou = 1 then iu else ou)

/-- `func (ival Interval) Intersect(oval Interval) Interval` -/
def Interval.Intersect (ival oval : Interval) : Interval :=
  if ival.Empty ∨ oval.Empty then EmptyInterval
  else
    match ival, oval with
    | .undefined, _ => oval
    | _, .undefined => ival
    | .mk il iu, .mk ol ou =>
      .mk (if Cmp il ol = 1 then il else ol) (if Cmp iu ou = -1 then iu else ou)

/-- `func (ival Interval) Equal(oval Interval) bool`.  Go's operator
precedence groups the source expression as
`A || (B && C) || (D && E && F)` with `A` = both lowers nil,
`B`/`D` = both lowers non-nil, `C` = both uppers nil, `E`/`F` = endpoint
`Cmp`s equal; under the all-or-nothing endpoint invariant that evaluates to
exactly this function. -/
def Interval.Equal : Interval → Interval → Bool
  | .undefined, .undefined => true
  | .mk il iu, .mk ol ou => Cmp il ol = 0 && Cmp iu ou = 0
  | _, _ => false

/-- `func infinity() Interval` -/
def infinity : Interval := .mk NegInf Inf

/-- The six comparison tokens handled by vrp.go (`token.LSS` etc.). -/
inductive Tok where
  | lss
  | gtr
  | leq
  | geq
  | eql
  | neq
deriving DecidableEq, Fintype

/-- `func flipToken(tok token.Token) token.Token` -/
def flipToken : Tok → Tok
  | .lss => .gtr
  | .gtr => .lss
  | .leq => .geq
  | .geq => .leq
  | .eql => .eql
  | .neq => .neq

/-- `func negateToken(tok token.Token) token.Token` -/
def negateToken : Tok → Tok
  | .lss => .geq
  | .gtr => .leq
  | .leq => .gtr
  | .geq => .lss
  | .eql => .neq
  | .neq => .eql

/-- Embeds the Go `Intersection` interface; `ir.Value` references are node
ids (`ℕ`). -/
inductive Intersection where
  | basic (interval : Interval)
  | symbolic (op : Tok) (value : ℕ)
deriving DecidableEq

/-- `Interval()` on intersections.  `SymbolicIntersection.Interval` returns
`NewInterval(nil, nil)`, i.e. the undefined interval. -/
def Intersection.Interval : Intersection → Interval
  | .basic i => i
  | .symbolic _ _ => .undefined

/-- The binary opcodes that can reach `eval`'s BinOp switch; only
`token.ADD` has a transfer in vrp.go, every other opcode hits the
`default: panic` arm. -/
inductive BinTok where
  | add
  | sub
  | mul
deriving DecidableEq

/-- The IR instruction shapes `eval` dispatches on; operands are node ids. -/
inductive Value where
  | const (k : ℤ)
  | binop (op : BinTok) (x y : ℕ)
  | phi (edges : List ℕ)
  | sigma (x : ℕ)
deriving DecidableEq

/-- Embeds `constraintGraph`: map lookups become total functions on node
ids (Go map lookups of absent keys yield the zero `Interval{nil,nil}`,
matching `Interval.undefined` as default). `defs` gives the instruction that
defines each node. -/
structure ConstraintGraph where
  defs : ℕ → Value
  intersections : ℕ → Intersection
  intervals : ℕ → Interval

/-- Lower endpoint of `eval`'s `token.ADD` transfer: `l := NegInf;
if a != NegInf && c != NegInf { l = a.Add(c); if sign-mismatch { l = NegInf } }`.
`none` propagates the panic inside `Add`. -/
def addLower (a c : Numeric) : Option Numeric :=
  if a ≠ NegInf ∧ c ≠ NegInf then
    match Add a c with
    | none => none
    | some l => some (if a.Negative = c.Negative ∧ a.Negative ≠ l.Negative then NegInf else l)
  else some NegInf

/-- Upper endpoint of `eval`'s `token.ADD` transfer: `u := Inf;
if b != Inf && d != Inf { u = b.Add(d); if sign-mismatch { u = Inf } }`. -/
def addUpper (b d : Numeric) : Option Numeric :=
  if b ≠ Inf ∧ d ≠ Inf then
    match Add b d with
    | none => none
    | some u => some (if b.Negative = d.Negative ∧ b.Negative ≠ u.Negative then Inf else u)
  else some Inf

/-- `func (cg *constraintGraph) eval(v ir.Value) Interval`.  `none` embeds
the panics (`default:` arms, and `v.Edges[0]` on an empty φ).  Note the
σ case reads `cg.intervals[v]` — the σ node's own interval — exactly as
the source does. -/
def eval (cg : ConstraintGraph) (v : ℕ) : Option Interval :=
  match cg.defs v with
  | .const k => some (.mk (.num k) (.num k))
  | .binop op x y =>
    match cg.intervals x, cg.intervals y with
    | .undefined, _ => some .undefined
    | _, .undefined => some .undefined
    | .mk a b, .mk c d =>
      match op with
      | .add =>
        match addLower a c, addUpper b d with
        | some l, some u => some (.mk l u)
        | _, _ => none
      | _ => none
  | .phi edges =>
    match edges with
    | [] => none
    | e :: rest => some (rest.foldl (fun r o => r.Union (cg.intervals o)) (cg.intervals e))
  | .sigma _ => some ((cg.intervals v).Intersect (cg.intersections v).Interval)

/-- The meet widening block of `XXX` (vrp.go lines 508–521), as written:
the third `else if` compares `new.Upper.Cmp(new.Upper)`, i.e. the new
upper bound with itself.  `none` embeds the nil-endpoint dereference when
`old` is defined but `new` is not. -/
def widen (old new_ : Interval) : Option Interval :=
  match old, new_ with
  | .undefined, _ => some new_
  | .mk ol ou, .mk nl nu =>
    if Cmp nl ol = -1 ∧ Cmp nu ou = 1 then some infinity
    else if Cmp nl ol = -1 then some (.mk NegInf ou)
    else if Cmp nu nu = 1 then some (.mk ol Inf)
    else some (.mk ol ou)
  | .mk _ _, .undefined => none

/-- One iteration of the inner `for op := range scc` body of `XXX`:
evaluate, widen, store, and report whether `!old.Equal(res)`. -/
def widenStep (cg : ConstraintGraph) (op : ℕ) : Option (ConstraintGraph × Bool) :=
  let old := cg.intervals op
  match eval cg op with
  | none => none
  | some nw =>
    match widen old nw with
    | none => none
    | some res =>
      some ({ cg with intervals := fun n => if n = op then res else cg.intervals n },
        !(old.Equal res))

/-- One pass over the SCC's nodes, accumulating the `changed` flag. -/
def widenPass (cg : ConstraintGraph) (scc : List ℕ) : Option (ConstraintGraph × Bool) :=
  scc.foldl
    (fun acc op =>
      match acc with
      | none => none
      | some (g, ch) =>
        match widenStep g op with
        | none => none
        | some (g2, ch2) => some (g2, ch || ch2))
    (some (cg, false))

/-- The `for changed { ... }` widening loop of `XXX`, fuelled.  When the
fuel runs out before the loop exits, the result is `none`. -/
def widenLoop : ℕ → ConstraintGraph → List ℕ → Option ConstraintGraph
  | 0, _, _ => none
  | fuel + 1, cg, scc =>
    match widenPass cg scc with
    | none => none
    | some (g, changed) => if changed then widenLoop fuel g scc else some g

/-- The `for _, scc := range sccs` body of `XXX`: panic (`none`) on an
empty SCC, then the widening loop.  After the loop the source only has the
commented-out `// XXX: cg.fixIntersects(scc)` and `// XXX run narrowing`,
so nothing further happens per SCC. -/
def processSCCs (fuel : ℕ) (cg : ConstraintGraph) (sccList : List (List ℕ)) :
    Option ConstraintGraph :=
  sccList.foldl
    (fun acc scc =>
      match acc with
      | none => none
      | some g => if scc = [] then none else widenLoop fuel g scc)
    (some cg)

/-- An operand of the controlling `if`'s comparison: `*ir.Const` or a
variable (node id). -/
inductive Operand where
  | const (k : ℤ)
  | var (id : ℕ)
deriving DecidableEq

/-- The `switch op` over a variable-vs-constant comparison inside `XXX`
(vrp.go lines 406–428), applied after flip/negate have produced `op`.
`val.Sub(val, one)` / `val.Add(val, one)` act on the fresh big.Int made by
`constantToBigInt`, giving `k-1` / `k+1`. -/
def constIntersectionTable (op : Tok) (k : ℤ) : Intersection :=
  match op with
  | .lss => .basic (.mk NegInf (.num (k - 1)))
  | .gtr => .basic (.mk (.num (k + 1)) Inf)
  | .leq => .basic (.mk NegInf (.num k))
  | .geq => .basic (.mk (.num k) Inf)
  | .neq => .basic infinity
  | .eql => .basic (.mk (.num k) (.num k))

/-- The intersection `XXX` assigns to a σ-node whose defining block's
control is `if condX condOp condY`, with `sigmaX` the σ's input `v.X` and
`isElse` the test `v.From.Succs[1] == b` (vrp.go lines 370–477).  The
default `BasicIntersection{infinity()}` set at line 371 is returned on
every path that does not overwrite it. -/
def branchIntersection (condOp : Tok) (condX condY : Operand) (sigmaX : ℕ)
    (isElse : Bool) : Intersection :=
  match condX, condY with
  | .const _, .const _ => .basic infinity
  | .var x, .const k =>
    if x = sigmaX then
      constIntersectionTable (if isElse then negateToken condOp else condOp) k
    else .basic infinity
  | .const k, .var y =>
    if y = sigmaX then
      constIntersectionTable
        (if isElse then negateToken (flipToken condOp) else flipToken condOp) k
    else .basic infinity
  | .var x, .var y =>
    if x = y then .basic infinity
    else if x ≠ sigmaX ∧ y ≠ sigmaX then .basic infinity
    else
      let p := if x = sigmaX then (y, condOp) else (x, flipToken condOp)
      let op := if isElse then negateToken p.2 else p.2
      match op with
      | .neq => .basic infinity
      | _ => .symbolic op p.1

/-- Modelled from the spec: the table of §4.2 in its own words — given the
effective operator (already flipped for a constant on the left and negated
on the else branch) and the constant `k`, the claimed Basic Intersection:
`<k → [-∞, k-1]`, `>k → [k+1, +∞]`, `≤k → [-∞, k]`, `≥k → [k, +∞]`,
`=k → [k, k]`, `≠k → [-∞, +∞]`. -/
def specConstTable (op : Tok) (k : ℤ) : Intersection :=
  match op with
  | .lss => .basic (.mk NegInf (.num (k - 1)))
  | .gtr => .basic (.mk (.num (k + 1)) Inf)
  | .leq => .basic (.mk NegInf (.num k))
  | .geq => .basic (.mk (.num k) Inf)
  | .eql => .basic (.mk (.num k) (.num k))
  | .neq => .basic (.mk NegInf Inf)

/-- Modelled from the spec, §4.5: a σ-node evaluates to the `Intersect` of
the interval bound to the σ's input value `v.X` with the σ's
Intersection's concrete interval. -/
def specEvalSigma (inputInterval : Interval) (isec : Intersection) : Interval :=
  inputInterval.Intersect isec.Interval

/-- Concrete graph for the fixpoint engine: node 0 is `Const 10` (its own
singleton SCC, so its range is stable after that SCC is processed), node 1
is a σ-node on node 0 carrying the Symbolic Intersection `(<, 0)`. -/
def cgFix : ConstraintGraph where
  defs := fun n =>
    match n with
    | 0 => .const 10
    | _ => .sigma 0
  intersections := fun n =>
    match n with
    | 1 => .symbolic .lss 0
    | _ => .basic infinity
  intervals := fun _ => .undefined

/-- Concrete graph for σ evaluation: node 1 is a σ-node whose input is
node 0; node 0 holds `[1, 2]`, node 1 is still undefined, and the σ's
intersection is the Basic `[-∞, ∞]`. -/
def cgSigma : ConstraintGraph where
  defs := fun _ => .sigma 0
  intersections := fun _ => .basic infinity
  intervals := fun n =>
    match n with
    | 0 => .mk (.num 1) (.num 2)
    | _ => .undefined

/-- Concrete graph for an unhandled BinOp: node 1 is `BinOp(SUB, 0, 0)`
and node 0 holds the defined interval `[1, 2]`. -/
def cgSub : ConstraintGraph where
  defs := fun n =>
    match n with
    | 1 => .binop .sub 0 0
    | _ => .const 1
  intersections := fun _ => .basic infinity
  intervals := fun n =>
    match n with
    | 0 => .mk (.num 1) (.num 2)
    | _ => .undefined

/-- Order embedding of `Numeric` into `ℤ` with `-∞` and `+∞` adjoined,
used to reason about `Cmp`. -/
def Numeric.toE : Numeric → WithBot (WithTop ℤ)
  | .inf true => ⊥
  | .inf false => ((⊤ : WithTop ℤ) : WithBot (WithTop ℤ))
  | .num z => ((z : WithTop ℤ) : WithBot (WithTop ℤ))

instance : LinearOrder Numeric :=
  LinearOrder.lift' Numeric.toE (by
    intro a b h
    rcases a with ⟨na⟩ | za <;> rcases b with ⟨nb⟩ | zb
    · cases na <;> cases nb <;> simp_all [Numeric.toE]
    · cases na <;> simp_all [Numeric.toE]
    · cases nb <;> simp_all [Numeric.toE]
    · simp_all [Numeric.toE])

/-- The lower endpoint `Union` picks: `if Cmp il ol = -1 then il else ol`. -/
def nmin (a b : Numeric) : Numeric := if Cmp a b = -1 then a else b

/-- The upper endpoint `Union` picks: `if Cmp iu ou = 1 then iu else ou`. -/
def nmax (a b : Numeric) : Numeric := if Cmp a b = 1 then a else b

/-- Intervals up to identification of all Empty representatives: the code
returns the canonical `[+∞, -∞]` on some paths and raw `[l, u]` with
`u < l` on others. -/
def Interval.eqv (a b : Interval) : Prop := (a.Empty ∧ b.Empty) ∨ a = b

/-- Per-node record of `sccs`'s Tarjan data: `index`, `lowlink`,
`onstack`.  The Go zero value (fresh `&struct{...}{}`) is `⟨0, 0, false⟩`. -/
structure TarjanData where
  index : ℕ
  lowlink : ℕ
  onstack : Bool
deriving DecidableEq

/-- The mutable state threaded through `strongconnect`: the `index`
counter (starts at 1), the stack `S` (top is the head here; Go appends to
and pops from the end), the `data` map, and the emitted SCCs (in Tarjan
emission order, reversed at the end). -/
structure TarjanState where
  index : ℕ
  S : List ℕ
  data : ℕ → Option TarjanData
  sccs : List (List ℕ)

/-- Point update of the `data` map. -/
def updD (m : ℕ → Option TarjanData) (k : ℕ) (d : TarjanData) : ℕ → Option TarjanData :=
  fun n => if n = k then some d else m n

/-- The constraint graph as `sccs` sees it: the node set (as the iteration
order of `for v := range cg.nodes`), the def→use `Referrers()` relation,
and the σ-intersections from which the "future" edges are derived. -/
structure SccGraph where
  nodes : List ℕ
  referrers : ℕ → List ℕ
  isecs : ℕ → Intersection

/-- `futuresUsedBy[v]`: the σ-nodes whose Symbolic Intersection references
`v`.  The Go code builds this map from `cg.intersections`, whose keys all
lie in `cg.nodes`. -/
def SccGraph.futuresUsedBy (g : SccGraph) (v : ℕ) : List ℕ :=
  g.nodes.filter fun w =>
    match g.isecs w with
    | .symbolic _ u => u = v
    | .basic _ => false

/-- The successors `strongconnect` iterates for `v`: first the future
edges, then the referrers, each filtered to members of `cg.nodes` (the
two Go loops have identical bodies, so they are one fold over the
concatenation). -/
def SccGraph.succs (g : SccGraph) (v : ℕ) : List ℕ :=
  g.futuresUsedBy v ++ (g.referrers v).filter (· ∈ g.nodes)

/-- The `for { w := S[len(S)-1]; ... if w == v { break } }` pop loop that
extracts one SCC: pops the stack down to and including `v`, clearing
`onstack`; returns the SCC in pop order, the remaining stack, and the
updated data.  Popping an empty stack is the Go index-out-of-range panic
(`none`). -/
def popScc (v : ℕ) : List ℕ → (ℕ → Option TarjanData) →
    Option (List ℕ × List ℕ × (ℕ → Option TarjanData))
  | [], _ => none
  | w :: rest, data =>
    let d := (data w).getD ⟨0, 0, false⟩
    let data2 := updD data w { d with onstack := false }
    if w = v then some ([w], rest, data2)
    else
      match popScc v rest data2 with
      | none => none
      | some (scc, rest2, data3) => some (w :: scc, rest2, data3)

/-- The body of `strongconnect`'s successor loop for owner `v`: recurse
on unvisited successors (through `rec`, the one-less-fuel recursion) and
update `v`'s lowlink with `min(vd.lowlink, wd.lowlink)`, exactly as the
two Go loops do; visited successors update the lowlink only when still
on the stack. -/
def sconnStep (g : SccGraph) (rec : TarjanState → ℕ → Option TarjanState) (v : ℕ)
    (st : TarjanState) (w : ℕ) : Option TarjanState :=
  let wd := (st.data w).getD ⟨0, 0, false⟩
  if wd.index = 0 then
    match rec st w with
    | none => none
    | some st2 =>
      let wd2 := (st2.data w).getD ⟨0, 0, false⟩
      let vd2 := (st2.data v).getD ⟨0, 0, false⟩
      some { st2 with
        data := updD st2.data v { vd2 with lowlink := min vd2.lowlink wd2.lowlink } }
  else if wd.onstack then
    let vd := (st.data v).getD ⟨0, 0, false⟩
    some { st with
      data := updD st.data v { vd with lowlink := min vd.lowlink wd.lowlink } }
  else some st

/-- `strongconnect`, fuelled: assign `index`/`lowlink`, push `v`, fold the
successor loop, and pop an SCC when `vd.lowlink == vd.index`.  `none`
means the fuel ran out (the Go recursion has no such bound). -/
def strongconnect (g : SccGraph) : ℕ → TarjanState → ℕ → Option TarjanState
  | 0, _, _ => none
  | fuel + 1, st0, v =>
    let st1 : TarjanState :=
      { st0 with
        data := updD st0.data v ⟨st0.index, st0.index, true⟩
        index := st0.index + 1
        S := v :: st0.S }
    match (g.succs v).foldlM (sconnStep g (strongconnect g fuel) v) st1 with
    | none => none
    | some st2 =>
      let vd := (st2.data v).getD ⟨0, 0, false⟩
      if vd.lowlink = vd.index then
        match popScc v st2.S st2.data with
        | none => none
        | some (scc, rest, data3) =>
          some { st2 with
            S := rest
            data := data3
            sccs := if scc ≠ [] then st2.sccs ++ [scc] else st2.sccs }
      else some st2

/-- `func (cg *constraintGraph) sccs() []valueSet`: run `strongconnect`
from every node not yet indexed, then reverse Tarjan's emission order into
topological order (the Go in-place slice reversal is `List.reverse`). -/
def sccsImpl (g : SccGraph) (fuel : ℕ) : Option (List (List ℕ)) :=
  match g.nodes.foldlM
      (fun (st : TarjanState) v =>
        match st.data v with
        | none => strongconnect g fuel st v
        | some d => if d.index = 0 then strongconnect g fuel st v else some st)
      ⟨1, [], fun _ => none, []⟩ with
  | none => none
  | some st => some st.sccs.reverse

/-- The per-node body of the `sccs` driver loop: run `strongconnect` on
every node whose record is still missing or unindexed. -/
def outerStep (g : SccGraph) (fuel : ℕ) (st : TarjanState) (v : ℕ) : Option TarjanState :=
  match st.data v with
  | none => strongconnect g fuel st v
  | some d => if d.index = 0 then strongconnect g fuel st v else some st

/-- One directed edge of the constraint graph's successor relation. -/
def SccGraph.E (g : SccGraph) (a b : ℕ) : Prop :=
  a ∈ g.nodes ∧ b ∈ g.succs a

/-- Reachability (reflexive-transitive closure of `E`). -/
def SccGraph.Reach (g : SccGraph) : ℕ → ℕ → Prop :=
  Relation.ReflTransGen g.E

/-- Mutual reachability: the same-strongly-connected-component relation. -/
def SccGraph.SameScc (g : SccGraph) (a b : ℕ) : Prop :=
  g.Reach a b ∧ g.Reach b a

/-- Index of `v`'s record (0 when absent, matching the Go zero value). -/
def idxOf (st : TarjanState) (v : ℕ) : ℕ := ((st.data v).getD ⟨0, 0, false⟩).index

/-- Lowlink of `v`'s record (0 when absent). -/
def lowOf (st : TarjanState) (v : ℕ) : ℕ := ((st.data v).getD ⟨0, 0, false⟩).lowlink

/-- `v` lies in one of the emitted SCCs. -/
def inEm (st : TarjanState) (v : ℕ) : Prop := ∃ c ∈ st.sccs, v ∈ c

/-- Number of yet-unvisited graph nodes; the fuel measure. -/
def unvisCount (g : SccGraph) (st : TarjanState) : ℕ :=
  (g.nodes.filter (fun u => (st.data u).isNone)).length

/-- A call frame of the running DFS: the finished-but-unpopped nodes
pushed so far during the call (top of stack first), and the call's own
node. -/
def frameFlat (F : List (List ℕ × ℕ)) : List ℕ :=
  F.flatMap (fun f => f.1 ++ [f.2])

/-- The chain-independent invariant of Tarjan states: record bounds,
index injectivity, stack/onstack agreement, strict index-sortedness of
the stack, lowlink soundness (`ls`: every stack node reaches an on-stack
node carrying its lowlink as index), and correctness of everything
emitted so far (each emitted component is exactly one strongly connected
component, components are successor-closed, pairwise disjoint, flagged
off-stack, and emitted in reverse topological order). -/
structure Inv (g : SccGraph) (st : TarjanState) : Prop where
  one_le : 1 ≤ st.index
  idx_pos : ∀ v d, st.data v = some d → 0 < d.index
  idx_lt : ∀ v d, st.data v = some d → d.index < st.index
  low_le : ∀ v d, st.data v = some d → d.lowlink ≤ d.index
  mem_nodes : ∀ v d, st.data v = some d → v ∈ g.nodes
  inj : ∀ u v du dv, st.data u = some du → st.data v = some dv → du.index = dv.index → u = v
  stack_flag : ∀ v, v ∈ st.S ↔ ∃ d, st.data v = some d ∧ d.onstack = true
  sorted : st.S.Pairwise (fun a b => idxOf st b < idxOf st a)
  ls : ∀ w ∈ st.S, ∃ t ∈ st.S, idxOf st t = lowOf st w ∧ g.Reach w t
  em_closed : ∀ u, inEm st u → ∀ s ∈ g.succs u, inEm st s
  em_scc : ∀ c ∈ st.sccs, c ≠ [] ∧ ∀ u ∈ c, ∀ w, (w ∈ c ↔ g.SameScc u w)
  em_flag : ∀ c ∈ st.sccs, ∀ v ∈ c, ∃ d, st.data v = some d ∧ d.onstack = false
  em_order : ∀ i j ci cj, st.sccs.get? i = some ci → st.sccs.get? j = some cj →
      ∀ u ∈ ci, ∀ w ∈ cj, w ∈ g.succs u → j ≤ i
  em_disj : ∀ i j ci cj, st.sccs.get? i = some ci → st.sccs.get? j = some cj →
      ∀ v, v ∈ ci → v ∈ cj → i = j
  em_nodup : ∀ c ∈ st.sccs, c.Nodup
  vis_iff : ∀ v, (st.data v).isSome ↔ (v ∈ st.S ∨ inEm st v)

/-- The chain-dependent invariant: `F` lists the active DFS calls,
innermost first, each with its segment of finished stack nodes.  The
stack is exactly the flattened frames; consecutive frame owners are
joined by graph edges; segment members are finished (`lowlink < index`,
all successors processed), bounded below by their owner's lowlink, and
reachable from their owner. -/
structure ChainInv (g : SccGraph) (st : TarjanState) (F : List (List ℕ × ℕ)) : Prop where
  shape : st.S = frameFlat F
  edges : List.Chain' (fun f1 f2 => f1.2 ∈ g.succs f2.2) F
  owner_nodes : ∀ f ∈ F, f.2 ∈ g.nodes
  fin_low : ∀ f ∈ F, ∀ w ∈ f.1, lowOf st w < idxOf st w
  fin_lc1 : ∀ f ∈ F, ∀ w ∈ f.1, ∀ s ∈ g.succs w,
      inEm st s ∨ (s ∈ st.S ∧ lowOf st w ≤ idxOf st s)
  seg_min : ∀ f ∈ F, ∀ w ∈ f.1, lowOf st f.2 ≤ lowOf st w
  seg_reach : ∀ f ∈ F, ∀ w ∈ f.1, g.Reach f.2 w

/-- Precondition of a `strongconnect g fuel st v` call under frames `F`. -/
structure Pre (g : SccGraph) (st : TarjanState) (v : ℕ) (F : List (List ℕ × ℕ)) : Prop where
  inv : Inv g st
  chain : ChainInv g st F
  unvis : st.data v = none
  vmem : v ∈ g.nodes
  link : ∀ f0 rest, F = f0 :: rest → v ∈ g.succs f0.2

/-- Postcondition of a successful `strongconnect g fuel st v = some st'`:
the invariant is restored, pre-existing records are untouched, new
records carry fresh indices and are reachable from `v`, the emitted list
only grows, the unvisited count shrinks, and the stack either returns
unchanged with `v` emitted (the call popped its region) or grows by a
fully-finished segment `C ++ [v]` satisfying the frame conditions. -/
structure Post (g : SccGraph) (st st' : TarjanState) (v : ℕ) : Prop where
  inv : Inv g st'
  idx_mono : st.index < st'.index
  frame_pres : ∀ u, (st.data u).isSome → st'.data u = st.data u
  new_reach : ∀ u d', st.data u = none → st'.data u = some d' → g.Reach v u
  v_data : ∃ dv, st'.data v = some dv ∧ dv.index = st.index
  em_mono : ∃ L, st'.sccs = st.sccs ++ L
  mu_lt : unvisCount g st' < unvisCount g st
  split : (v ∉ st'.S ∧ st'.S = st.S ∧ inEm st' v ∧ lowOf st' v = idxOf st' v) ∨
      (∃ C, st'.S = C ++ v :: st.S ∧
        lowOf st' v < idxOf st' v ∧
        (∀ s ∈ g.succs v, inEm st' s ∨ (s ∈ st'.S ∧ lowOf st' v ≤ idxOf st' s)) ∧
        (∀ w ∈ C, lowOf st' v ≤ lowOf st' w) ∧
        (∀ w ∈ C, lowOf st' w < idxOf st' w) ∧
        (∀ w ∈ C, ∀ s ∈ g.succs w,
          inEm st' s ∨ (s ∈ st'.S ∧ lowOf st' w ≤ idxOf st' s)) ∧
        (∀ w ∈ C, g.Reach v w))

/-- `ChainInv` without the first frame's lowlink lower bound (`seg_min`),
which only holds again after the caller's `min` update. -/
structure ChainInvW (g : SccGraph) (st : TarjanState) (C : List ℕ) (v : ℕ)
    (F : List (List ℕ × ℕ)) : Prop where
  shape : st.S = frameFlat ((C, v) :: F)
  edges : List.Chain' (fun f1 f2 => f1.2 ∈ g.succs f2.2) ((C, v) :: F)
  owner_nodes : ∀ f ∈ (C, v) :: F, f.2 ∈ g.nodes
  fin_low : ∀ f ∈ (C, v) :: F, ∀ w ∈ f.1, lowOf st w < idxOf st w
  fin_lc1 : ∀ f ∈ (C, v) :: F, ∀ w ∈ f.1, ∀ s ∈ g.succs w,
      inEm st s ∨ (s ∈ st.S ∧ lowOf st w ≤ idxOf st s)
  seg_minF : ∀ f ∈ F, ∀ w ∈ f.1, lowOf st f.2 ≤ lowOf st w
  seg_reach : ∀ f ∈ (C, v) :: F, ∀ w ∈ f.1, g.Reach f.2 w

/-- The invariant of the successor fold inside `strongconnect g _ st0 v`:
`st0` is the pre-call state, `processed` the prefix of successors already
handled. -/
structure MidInv (g : SccGraph) (st0 : TarjanState) (v : ℕ) (F : List (List ℕ × ℕ))
    (processed : List ℕ) (st : TarjanState) : Prop where
  inv : Inv g st
  chain : ∃ C, ChainInv g st ((C, v) :: F)
  v0 : st0.data v = none
  vrec : ∃ dv, st.data v = some dv ∧ dv.index = st0.index
  proc : ∀ s ∈ processed, inEm st s ∨ (s ∈ st.S ∧ lowOf st v ≤ idxOf st s)
  pres : ∀ u, (st0.data u).isSome → st.data u = st0.data u
  fresh : ∀ u d', st0.data u = none → st.data u = some d' → g.Reach v u
  emm : ∃ L, st.sccs = st0.sccs ++ L
  idxm : st0.index < st.index
  mu : unvisCount g st < unvisCount g st0

/-! ### Theorems -/

/-- C1: running the fixpoint engine (`XXX`) on `cgFix` with its SCCs
`[[0], [1]]` in topological order: node 0's range stabilises at `[10,10]`,
yet node 1's Symbolic Intersection `(<, 0)` is never replaced by the Basic
Intersection `[-∞, 9]` computed from node 0's interval, and no narrowing
pass updates node 1's interval (it stays `⊥`): `fixIntersects` and
narrowing are absent from the per-SCC loop. -/
theorem C1_fixup_and_narrowing_missing :
    (processSCCs 5 cgFix [[0], [1]]).map
        (fun g => (g.intersections 1, g.intervals 0, g.intervals 1)) =
      some (.symbolic .lss 0, .mk (.num 10) (.num 10), .undefined) := by
  decide

/-- C2: the widening step at `old = [0,0]`, `new = [0,5]` keeps `[0,0]`:
the third branch of the source compares `new.Upper` with itself, so the
claimed upper-widening to `[0, +∞]` never fires. -/
theorem C2_widen_upper_never_fires :
    widen (.mk (.num 0) (.num 0)) (.mk (.num 0) (.num 5)) =
      some (.mk (.num 0) (.num 0)) := by
  decide

/-- C3: eval of σ-node 1 in `cgSigma` intersects the σ's *own* (still
undefined) interval with its Basic `[-∞, ∞]`, yielding `[-∞, ∞]`; the
claimed formula — the input value's interval intersected with the
intersection — yields `[1, 2]`. -/
theorem C3_sigma_eval_uses_own_interval :
    eval cgSigma 1 = some (.mk NegInf Inf) ∧
      specEvalSigma (cgSigma.intervals 0) (cgSigma.intersections 1) =
        .mk (.num 1) (.num 2) := by
  decide

/-- C4: `Add` fails (`none`, the panic) for `-∞ + 0` even though the claim
allows failure only for mixed infinities, and it returns `+∞` for
`+∞ + (-∞)` instead of failing. -/
theorem C4_add_infinity_handling_wrong :
    Add NegInf (.num 0) = none ∧ Add Inf NegInf = some Inf := by
  decide

/-- C5: `Add` of Finite 1 and Finite 2 returns Finite 2, not Finite 3:
the source adds `ny` into a zeroed accumulator but uses `nx.Number` as the
receiver, so the returned value is `0 + y`. -/
theorem C5_add_finite_wrong :
    Add (.num 1) (.num 2) = some (.num 2) ∧
      Add (.num 1) (.num 2) ≠ some (.num 3) := by
  decide

/-- C6: for a σ-node whose controlling comparison is
variable-versus-constant about the σ's input, the builder assigns exactly
the claimed table applied to the operator — flipped when the constant is
on the left, then negated when the σ's block is the second successor
(else branch). -/
theorem C6_branch_const_table (op : Tok) (isElse : Bool) (k : ℤ) (x : ℕ) :
    branchIntersection op (.var x) (.const k) x isElse
        = specConstTable (if isElse then negateToken op else op) k ∧
      branchIntersection op (.const k) (.var x) x isElse
        = specConstTable (if isElse then negateToken (flipToken op) else flipToken op) k := by
  cases op <;> cases isElse <;>
    simp [branchIntersection, constIntersectionTable, specConstTable,
      flipToken, negateToken, infinity]

/-- C8: eval of BinOp node 1 in `cgSub` (opcode SUB, which has no
implemented transfer, with defined operand intervals) panics (`none`)
instead of returning `[-∞, +∞]`. -/
theorem C8_unhandled_binop_panics : eval cgSub 1 = none := by
  decide

/-- C10: `flipToken` and `negateToken` are involutions on the six
comparison tokens, and each maps the six-token set onto itself. -/
theorem C10_token_involutions :
    (∀ t : Tok, flipToken (flipToken t) = t) ∧
      (∀ t : Tok, negateToken (negateToken t) = t) ∧
      (∀ t : Tok, ∃ s : Tok, flipToken s = t) ∧
      (∀ t : Tok, ∃ s : Tok, negateToken s = t) := by
  decide

theorem numeric_lt_def (a b : Numeric) : a < b ↔ a.toE < b.toE := Iff.rfl

theorem cmp_eq_neg_one_iff (a b : Numeric) : Cmp a b = -1 ↔ a < b := by
  rw [numeric_lt_def]
  rcases a with ⟨na⟩ | za <;> rcases b with ⟨nb⟩ | zb
  · cases na <;> cases nb <;> simp [Cmp, Numeric.toE]
  · cases na <;>
      simp [Cmp, Numeric.toE, ← WithBot.coe_top, WithBot.coe_lt_coe, WithTop.coe_lt_top]
  · cases nb <;>
      simp [Cmp, Numeric.toE, ← WithBot.coe_top, WithBot.coe_lt_coe, WithTop.coe_lt_top]
  · simp only [Cmp, intCmp, Numeric.toE, WithBot.coe_lt_coe, WithTop.coe_lt_coe]
    split_ifs <;> simp <;> omega

theorem cmp_eq_one_iff (a b : Numeric) : Cmp a b = 1 ↔ b < a := by
  rw [numeric_lt_def]
  rcases a with ⟨na⟩ | za <;> rcases b with ⟨nb⟩ | zb
  · cases na <;> cases nb <;> simp [Cmp, Numeric.toE]
  · cases na <;>
      simp [Cmp, Numeric.toE, ← WithBot.coe_top, WithBot.coe_lt_coe, WithTop.coe_lt_top]
  · cases nb <;>
      simp [Cmp, Numeric.toE, ← WithBot.coe_top, WithBot.coe_lt_coe, WithTop.coe_lt_top]
  · simp only [Cmp, intCmp, Numeric.toE, WithBot.coe_lt_coe, WithTop.coe_lt_coe]
    split_ifs <;> simp <;> omega

theorem cmp_eq_zero_iff (a b : Numeric) : Cmp a b = 0 ↔ a = b := by
  rcases a with ⟨na⟩ | za <;> rcases b with ⟨nb⟩ | zb
  · cases na <;> cases nb <;> simp [Cmp]
  · cases na <;> simp [Cmp]
  · cases nb <;> simp [Cmp]
  · simp only [Cmp, intCmp, Numeric.num.injEq]
    split_ifs <;> simp <;> omega

theorem nmin_eq_min (a b : Numeric) : nmin a b = min a b := by
  unfold nmin
  by_cases h : Cmp a b = -1
  · rw [if_pos h, min_eq_left ((cmp_eq_neg_one_iff a b).1 h).le]
  · rw [if_neg h, min_eq_right (le_of_not_lt (fun hlt => h ((cmp_eq_neg_one_iff a b).2 hlt)))]

theorem nmax_eq_max (a b : Numeric) : nmax a b = max a b := by
  unfold nmax
  by_cases h : Cmp a b = 1
  · rw [if_pos h, max_eq_left ((cmp_eq_one_iff a b).1 h).le]
  · rw [if_neg h, max_eq_right (le_of_not_lt (fun hlt => h ((cmp_eq_one_iff a b).2 hlt)))]

theorem empty_mk_iff (l u : Numeric) : (Interval.mk l u).Empty = true ↔ u < l := by
  simp [Interval.Empty, cmp_eq_neg_one_iff]

theorem empty_mk_false_iff (l u : Numeric) : (Interval.mk l u).Empty = false ↔ l ≤ u := by
  simp [Interval.Empty, cmp_eq_neg_one_iff, not_lt]

theorem emptyInterval_empty : EmptyInterval.Empty = true := by decide

theorem union_empty_left {x : Interval} (h : x.Empty = true) (y : Interval) :
    x.Union y = y := by
  unfold Interval.Union
  simp [h]

theorem union_empty_right {x y : Interval} (hx : x.Empty = false) (hy : y.Empty = true) :
    x.Union y = x := by
  unfold Interval.Union
  simp [hx, hy]

theorem union_undef_left (y : Interval) :
    Interval.Union .undefined y = if y.Empty then Interval.undefined else y := by
  by_cases h : y.Empty = true
  · unfold Interval.Union
    simp [h, Interval.Empty]
  · simp only [Bool.not_eq_true] at h
    unfold Interval.Union
    simp [h, Interval.Empty]

theorem union_undef_right (x : Interval) :
    x.Union .undefined = if x.Empty then Interval.undefined else x := by
  cases x with
  | undefined => rfl
  | mk l u =>
    by_cases h : (Interval.mk l u).Empty = true
    · unfold Interval.Union
      simp [h, Interval.Empty]
    · simp only [Bool.not_eq_true] at h
      unfold Interval.Union
      simp [h, Interval.Empty]

theorem union_mk_mk {il iu ol ou : Numeric} (hx : (Interval.mk il iu).Empty = false)
    (hy : (Interval.mk ol ou).Empty = false) :
    (Interval.mk il iu).Union (.mk ol ou) = .mk (nmin il ol) (nmax iu ou) := by
  unfold Interval.Union
  simp [hx, hy, nmin, nmax]

theorem union_empty_false {x y : Interval} (hx : x.Empty = false) (hy : y.Empty = false) :
    (x.Union y).Empty = false := by
  cases x with
  | undefined =>
    rw [union_undef_left]
    simp [hy]
  | mk il iu =>
    cases y with
    | undefined =>
      rw [union_undef_right]
      simp [hx]
    | mk ol ou =>
      rw [union_mk_mk hx hy, empty_mk_false_iff, nmin_eq_min, nmax_eq_max]
      rw [empty_mk_false_iff] at hx
      exact le_trans (min_le_left _ _) (le_trans hx (le_max_left _ _))

theorem union_assoc_law (x y z : Interval) :
    (x.Union y).Union z = x.Union (y.Union z) := by
  by_cases hx : x.Empty = true
  · rw [union_empty_left hx, union_empty_left hx]
  · simp only [Bool.not_eq_true] at hx
    by_cases hy : y.Empty = true
    · rw [union_empty_right hx hy, union_empty_left hy]
    · simp only [Bool.not_eq_true] at hy
      by_cases hz : z.Empty = true
      · rw [union_empty_right (union_empty_false hx hy) hz, union_empty_right hy hz]
      · simp only [Bool.not_eq_true] at hz
        cases x with
        | undefined =>
          rw [union_undef_left, union_undef_left]
          simp [hy, union_empty_false hy hz]
        | mk il iu =>
          cases y with
          | undefined =>
            rw [union_undef_right, union_undef_left]
            simp [hx, hz]
          | mk ol ou =>
            cases z with
            | undefined =>
              rw [union_undef_right, union_undef_right]
              simp [hy, union_empty_false hx hy]
            | mk zl zu =>
              have h1 : (Interval.mk (nmin il ol) (nmax iu ou)).Empty = false := by
                rw [← union_mk_mk hx hy]
                exact union_empty_false hx hy
              have h2 : (Interval.mk (nmin ol zl) (nmax ou zu)).Empty = false := by
                rw [← union_mk_mk hy hz]
                exact union_empty_false hy hz
              rw [union_mk_mk hx hy, union_mk_mk hy hz, union_mk_mk h1 hz,
                union_mk_mk hx h2]
              simp [nmin_eq_min, nmax_eq_max, min_assoc, max_assoc]

theorem union_comm_eqv (x y : Interval) : (x.Union y).eqv (y.Union x) := by
  by_cases hx : x.Empty = true
  · by_cases hy : y.Empty = true
    · exact Or.inl ⟨by rw [union_empty_left hx]; exact hy, by rw [union_empty_left hy]; exact hx⟩
    · simp only [Bool.not_eq_true] at hy
      exact Or.inr (by rw [union_empty_left hx, union_empty_right hy hx])
  · simp only [Bool.not_eq_true] at hx
    by_cases hy : y.Empty = true
    · exact Or.inr (by rw [union_empty_right hx hy, union_empty_left hy])
    · simp only [Bool.not_eq_true] at hy
      refine Or.inr ?_
      cases x with
      | undefined =>
        cases y with
        | undefined => rfl
        | mk ol ou => rw [union_undef_left, union_undef_right]
      | mk il iu =>
        cases y with
        | undefined => rw [union_undef_right, union_undef_left]
        | mk ol ou =>
          rw [union_mk_mk hx hy, union_mk_mk hy hx, nmin_eq_min, nmin_eq_min,
            nmax_eq_max, nmax_eq_max, min_comm, max_comm]

theorem union_idem (x : Interval) : x.Union x = x := by
  by_cases hx : x.Empty = true
  · exact union_empty_left hx x
  · simp only [Bool.not_eq_true] at hx
    cases x with
    | undefined => rfl
    | mk l u =>
      rw [union_mk_mk hx hx]
      simp [nmin_eq_min, nmax_eq_max]

theorem intersect_empty_left {x : Interval} (h : x.Empty = true) (y : Interval) :
    x.Intersect y = EmptyInterval := by
  unfold Interval.Intersect
  simp [h]

theorem intersect_empty_right {y : Interval} (h : y.Empty = true) (x : Interval) :
    x.Intersect y = EmptyInterval := by
  unfold Interval.Intersect
  simp [h]

theorem intersect_undef_left (y : Interval) :
    Interval.Intersect .undefined y = if y.Empty then EmptyInterval else y := by
  by_cases h : y.Empty = true
  · simp [h, intersect_empty_right h]
  · simp only [Bool.not_eq_true] at h
    unfold Interval.Intersect
    simp [h, Interval.Empty]

theorem intersect_undef_right (x : Interval) :
    x.Intersect .undefined = if x.Empty then EmptyInterval else x := by
  cases x with
  | undefined => rfl
  | mk l u =>
    by_cases h : (Interval.mk l u).Empty = true
    · simp [h, intersect_empty_left h]
    · simp only [Bool.not_eq_true] at h
      unfold Interval.Intersect
      simp [h, Interval.Empty]

theorem intersect_mk_mk {il iu ol ou : Numeric} (hx : (Interval.mk il iu).Empty = false)
    (hy : (Interval.mk ol ou).Empty = false) :
    (Interval.mk il iu).Intersect (.mk ol ou) = .mk (nmax il ol) (nmin iu ou) := by
  unfold Interval.Intersect
  simp [hx, hy, nmin, nmax]

theorem intersect_comm_law (x y : Interval) : x.Intersect y = y.Intersect x := by
  by_cases hx : x.Empty = true
  · rw [intersect_empty_left hx, intersect_empty_right hx]
  · simp only [Bool.not_eq_true] at hx
    by_cases hy : y.Empty = true
    · rw [intersect_empty_right hy, intersect_empty_left hy]
    · simp only [Bool.not_eq_true] at hy
      cases x with
      | undefined =>
        cases y with
        | undefined => rfl
        | mk ol ou => rw [intersect_undef_left, intersect_undef_right]
      | mk il iu =>
        cases y with
        | undefined => rw [intersect_undef_right, intersect_undef_left]
        | mk ol ou =>
          rw [intersect_mk_mk hx hy, intersect_mk_mk hy hx, nmax_eq_max, nmax_eq_max,
            nmin_eq_min, nmin_eq_min, max_comm, min_comm]

theorem intersect_assoc_eqv (x y z : Interval) :
    ((x.Intersect y).Intersect z).eqv (x.Intersect (y.Intersect z)) := by
  by_cases hx : x.Empty = true
  · refine Or.inr ?_
    rw [intersect_empty_left hx, intersect_empty_left emptyInterval_empty,
      intersect_empty_left hx]
  · simp only [Bool.not_eq_true] at hx
    by_cases hy : y.Empty = true
    · refine Or.inr ?_
      rw [intersect_empty_right hy, intersect_empty_left emptyInterval_empty,
        intersect_empty_left hy, intersect_empty_right emptyInterval_empty]
    · simp only [Bool.not_eq_true] at hy
      by_cases hz : z.Empty = true
      · refine Or.inr ?_
        rw [intersect_empty_right hz, intersect_empty_right hz,
          intersect_empty_right emptyInterval_empty]
      · simp only [Bool.not_eq_true] at hz
        cases x with
        | undefined =>
          by_cases hyz : (y.Intersect z).Empty = true
          · refine Or.inl ⟨?_, ?_⟩
            · rw [intersect_undef_left]
              simpa [hy] using hyz
            · rw [intersect_undef_left]
              simp [hyz, emptyInterval_empty]
          · simp only [Bool.not_eq_true] at hyz
            refine Or.inr ?_
            rw [intersect_undef_left, intersect_undef_left]
            simp [hy, hyz]
        | mk il iu =>
          cases y with
          | undefined =>
            refine Or.inr ?_
            rw [intersect_undef_right, intersect_undef_left]
            simp [hx, hz]
          | mk ol ou =>
            cases z with
            | undefined =>
              by_cases hxy : ((Interval.mk il iu).Intersect (.mk ol ou)).Empty = true
              · refine Or.inl ⟨?_, ?_⟩
                · rw [intersect_undef_right]
                  simp [hxy, emptyInterval_empty]
                · rw [intersect_undef_right]
                  simpa [hy] using hxy
              · simp only [Bool.not_eq_true] at hxy
                refine Or.inr ?_
                rw [intersect_undef_right, intersect_undef_right]
                simp [hy, hxy]
            | mk zl zu =>
              have hxym : (Interval.mk il iu).Intersect (.mk ol ou)
                  = .mk (nmax il ol) (nmin iu ou) := intersect_mk_mk hx hy
              have hyzm : (Interval.mk ol ou).Intersect (.mk zl zu)
                  = .mk (nmax ol zl) (nmin ou zu) := intersect_mk_mk hy hz
              by_cases hA : (Interval.mk (nmax il ol) (nmin iu ou)).Empty = true
              · rw [hxym, intersect_empty_left hA]
                by_cases hB : (Interval.mk (nmax ol zl) (nmin ou zu)).Empty = true
                · rw [hyzm, intersect_empty_right hB]
                  exact Or.inr rfl
                · simp only [Bool.not_eq_true] at hB
                  rw [hyzm, intersect_mk_mk hx hB]
                  refine Or.inl ⟨emptyInterval_empty, ?_⟩
                  rw [empty_mk_iff] at hA ⊢
                  simp only [nmin_eq_min, nmax_eq_max] at hA ⊢
                  calc min iu (min ou zu) ≤ min iu ou := min_le_min le_rfl (min_le_left _ _)
                    _ < max il ol := hA
                    _ ≤ max il (max ol zl) := max_le_max le_rfl (le_max_left _ _)
              · simp only [Bool.not_eq_true] at hA
                by_cases hB : (Interval.mk (nmax ol zl) (nmin ou zu)).Empty = true
                · rw [hxym, intersect_mk_mk hA hz, hyzm, intersect_empty_right hB]
                  refine Or.inl ⟨?_, emptyInterval_empty⟩
                  rw [empty_mk_iff] at hB ⊢
                  simp only [nmin_eq_min, nmax_eq_max] at hB ⊢
                  calc min (min iu ou) zu ≤ min ou zu := min_le_min (min_le_right _ _) le_rfl
                    _ < max ol zl := hB
                    _ ≤ max (max il ol) zl := max_le_max (le_max_right _ _) le_rfl
                · simp only [Bool.not_eq_true] at hB
                  refine Or.inr ?_
                  rw [hxym, hyzm, intersect_mk_mk hA hz, intersect_mk_mk hx hB]
                  simp [nmin_eq_min, nmax_eq_max, min_assoc, max_assoc]

theorem intersect_idem_eqv (x : Interval) : (x.Intersect x).eqv x := by
  by_cases hx : x.Empty = true
  · exact Or.inl ⟨by rw [intersect_empty_left hx]; exact emptyInterval_empty, hx⟩
  · simp only [Bool.not_eq_true] at hx
    refine Or.inr ?_
    cases x with
    | undefined => rfl
    | mk l u =>
      rw [intersect_mk_mk hx hx]
      simp [nmin_eq_min, nmax_eq_max]

theorem undef_union_id {x : Interval} (h : x.Empty = false) :
    Interval.Union .undefined x = x := by
  rw [union_undef_left]
  simp [h]

/-- C9 counterexample: the claim fails as stated — the Undefined interval
is not an identity for `Union` at `x = [+∞, -∞]` (the result is `⊥`, not
Empty), `Union` is not commutative on two distinct empty intervals,
`Intersect` is not associative (`([0,1] ∩ [3,4]) ∩ [-∞,∞]` is the
canonical `[+∞,-∞]` while `[0,1] ∩ ([3,4] ∩ [-∞,∞])` is `[3,1]`), and
`Intersect` is not idempotent on the empty interval `[5,3]`. -/
theorem C9_lattice_laws_counterexample :
    Interval.Union .undefined EmptyInterval ≠ EmptyInterval ∧
      (Interval.mk (.num 5) (.num 3)).Union (.mk (.num 7) (.num 2)) ≠
        (Interval.mk (.num 7) (.num 2)).Union (.mk (.num 5) (.num 3)) ∧
      ((Interval.mk (.num 0) (.num 1)).Intersect (.mk (.num 3) (.num 4))).Intersect infinity ≠
        (Interval.mk (.num 0) (.num 1)).Intersect ((Interval.mk (.num 3) (.num 4)).Intersect infinity) ∧
      (Interval.mk (.num 5) (.num 3)).Intersect (.mk (.num 5) (.num 3)) ≠
        Interval.mk (.num 5) (.num 3) := by
  decide

/-- C9 (amended): `Union` is associative and idempotent and `Intersect` is
commutative with structural equality; `Union` is commutative and
`Intersect` is associative and idempotent up to identifying all empty
intervals (the code returns the canonical `[+∞,-∞]` on some paths and a
raw `[l, u]` with `u < l` on others); every Empty interval is absorbing
for `Intersect` (always yielding the canonical Empty); and the Undefined
interval is a left identity for `Union` on every non-empty argument
(on an empty argument the result is `⊥`). -/
theorem C9_lattice_laws_amended :
    (∀ x y : Interval, (x.Union y).eqv (y.Union x)) ∧
      (∀ x y z : Interval, (x.Union y).Union z = x.Union (y.Union z)) ∧
      (∀ x : Interval, x.Union x = x) ∧
      (∀ x y : Interval, x.Intersect y = y.Intersect x) ∧
      (∀ x y z : Interval, ((x.Intersect y).Intersect z).eqv (x.Intersect (y.Intersect z))) ∧
      (∀ x : Interval, (x.Intersect x).eqv x) ∧
      (∀ e x : Interval, e.Empty = true → e.Intersect x = EmptyInterval) ∧
      (∀ x : Interval, x.Empty = false → Interval.Union .undefined x = x) :=
  ⟨union_comm_eqv, union_assoc_law, union_idem, intersect_comm_law,
    intersect_assoc_eqv, intersect_idem_eqv,
    fun _ x h => intersect_empty_left h x, fun _ h => undef_union_id h⟩

/-- Witness for C9 (amended): its two hypothesised conjuncts applied at
concrete intervals. -/
theorem C9_lattice_laws_amended_witness :
    (Interval.mk (.num 5) (.num 3)).Intersect (.mk (.num 0) (.num 9)) = EmptyInterval ∧
      Interval.Union .undefined (.mk (.num 0) (.num 9)) = .mk (.num 0) (.num 9) :=
  ⟨C9_lattice_laws_amended.2.2.2.2.2.2.1 (.mk (.num 5) (.num 3)) (.mk (.num 0) (.num 9))
      (by decide),
    C9_lattice_laws_amended.2.2.2.2.2.2.2 (.mk (.num 0) (.num 9)) (by decide)⟩

theorem updD_self (m : ℕ → Option TarjanData) (k : ℕ) (d : TarjanData) :
    updD m k d k = some d := by
  simp [updD]

theorem updD_other (m : ℕ → Option TarjanData) {k n : ℕ} {d : TarjanData} (h : n ≠ k) :
    updD m k d n = m n := by
  simp [updD, h]

theorem idxOf_eq {st : TarjanState} {v : ℕ} {d : TarjanData} (h : st.data v = some d) :
    idxOf st v = d.index := by
  simp [idxOf, h]

theorem lowOf_eq {st : TarjanState} {v : ℕ} {d : TarjanData} (h : st.data v = some d) :
    lowOf st v = d.lowlink := by
  simp [lowOf, h]

theorem reach_refl (g : SccGraph) (a : ℕ) : g.Reach a a := Relation.ReflTransGen.refl

theorem reach_trans {g : SccGraph} {a b c : ℕ} (h1 : g.Reach a b) (h2 : g.Reach b c) :
    g.Reach a c := Relation.ReflTransGen.trans h1 h2

theorem reach_single {g : SccGraph} {a b : ℕ} (h : g.E a b) : g.Reach a b :=
  Relation.ReflTransGen.single h

theorem reach_head {g : SccGraph} {a b c : ℕ} (h : g.E a b) (h2 : g.Reach b c) :
    g.Reach a c := Relation.ReflTransGen.head h h2

theorem sameScc_refl (g : SccGraph) (a : ℕ) : g.SameScc a a :=
  ⟨reach_refl g a, reach_refl g a⟩

theorem sameScc_symm {g : SccGraph} {a b : ℕ} (h : g.SameScc a b) : g.SameScc b a :=
  ⟨h.2, h.1⟩

theorem sameScc_trans {g : SccGraph} {a b c : ℕ} (h1 : g.SameScc a b) (h2 : g.SameScc b c) :
    g.SameScc a c := ⟨reach_trans h1.1 h2.1, reach_trans h2.2 h1.2⟩

theorem inEm_mono {st st' : TarjanState} {L : List (List ℕ)}
    (hsccs : st'.sccs = st.sccs ++ L) {v : ℕ} (h : inEm st v) : inEm st' v := by
  obtain ⟨c, hc, hv⟩ := h
  exact ⟨c, by simp [hsccs, hc], hv⟩

theorem pairwise_lt_nodup {f : ℕ → ℕ} {l : List ℕ}
    (h : l.Pairwise (fun a b => f b < f a)) : l.Nodup := by
  induction l with
  | nil => exact List.nodup_nil
  | cons a t ih =>
    rw [List.pairwise_cons] at h
    refine List.nodup_cons.2 ⟨fun hmem => ?_, ih h.2⟩
    exact absurd (h.1 a hmem) (lt_irrefl _)

theorem filter_len_mono {p q : ℕ → Bool} (l : List ℕ)
    (hmono : ∀ a ∈ l, q a = true → p a = true) :
    (l.filter q).length ≤ (l.filter p).length := by
  induction l with
  | nil => simp
  | cons a t ih =>
    have ht : ∀ x ∈ t, q x = true → p x = true :=
      fun x hx => hmono x (List.mem_cons_of_mem a hx)
    rw [List.filter_cons, List.filter_cons]
    by_cases hqa : q a = true
    · rw [hqa, hmono a (List.mem_cons_self a t) hqa]
      simpa using ih ht
    · simp only [Bool.not_eq_true] at hqa
      rw [hqa]
      by_cases hpa : p a = true
      · rw [hpa]
        simp only [if_true, if_false, List.length_cons]
        exact le_trans (ih ht) (Nat.le_succ _)
      · simp only [Bool.not_eq_true] at hpa
        rw [hpa]
        simpa using ih ht

theorem filter_len_strict {p q : ℕ → Bool} (l : List ℕ)
    (hmono : ∀ a ∈ l, q a = true → p a = true) (v : ℕ) (hv : v ∈ l)
    (hp : p v = true) (hq : q v = false) :
    (l.filter q).length < (l.filter p).length := by
  induction l with
  | nil => cases hv
  | cons a t ih =>
    have ht : ∀ x ∈ t, q x = true → p x = true :=
      fun x hx => hmono x (List.mem_cons_of_mem a hx)
    rw [List.filter_cons, List.filter_cons]
    rcases List.mem_cons.1 hv with rfl | hvt
    · rw [hp, hq]
      simpa using Nat.lt_succ_of_le (filter_len_mono t ht)
    · by_cases hqa : q a = true
      · rw [hqa, hmono a (List.mem_cons_self a t) hqa]
        simpa using ih ht hvt
      · simp only [Bool.not_eq_true] at hqa
        rw [hqa]
        by_cases hpa : p a = true
        · rw [hpa]
          simp only [if_true, if_false, List.length_cons]
          exact lt_trans (ih ht hvt) (Nat.lt_succ_self _)
        · simp only [Bool.not_eq_true] at hpa
          rw [hpa]
          simpa using ih ht hvt

theorem succs_mem_nodes {g : SccGraph} {u w : ℕ} (h : w ∈ g.succs u) : w ∈ g.nodes := by
  unfold SccGraph.succs SccGraph.futuresUsedBy at h
  rcases List.mem_append.1 h with h1 | h2
  · exact List.mem_of_mem_filter h1
  · have := List.of_mem_filter h2
    simpa using this

theorem popScc_spec (v : ℕ) (rest : List ℕ) :
    ∀ (C : List ℕ) (data : ℕ → Option TarjanData), v ∉ C →
      ∃ data', popScc v (C ++ v :: rest) data = some (C ++ [v], rest, data') ∧
        ∀ n, data' n = if n ∈ C ++ [v] then
            some { ((data n).getD ⟨0, 0, false⟩) with onstack := false }
          else data n := by
  intro C
  induction C with
  | nil =>
    intro data _
    refine ⟨updD data v { ((data v).getD ⟨0, 0, false⟩) with onstack := false }, ?_, ?_⟩
    · simp [popScc]
    · intro n
      by_cases hn : n = v
      · subst hn
        simp [updD_self]
      · rw [updD_other _ hn]
        simp [hn]
  | cons w C' ih =>
    intro data hv
    have hwv : w ≠ v := fun h => hv (h ▸ List.mem_cons_self w C')
    have hv' : v ∉ C' := fun h => hv (List.mem_cons_of_mem w h)
    set data2 := updD data w { ((data w).getD ⟨0, 0, false⟩) with onstack := false } with hdata2
    obtain ⟨data', hrun, hpt⟩ := ih data2 hv'
    refine ⟨data', ?_, ?_⟩
    · show popScc v ((w :: C') ++ v :: rest) data = some ((w :: C') ++ [v], rest, data')
      rw [List.cons_append]
      simp only [popScc, hwv, if_false, ← hdata2, hrun]
      rfl
    · intro n
      rw [hpt n]
      by_cases hn : n = w
      · subst hn
        have h2 : data2 n = some { ((data n).getD ⟨0, 0, false⟩) with onstack := false } := by
          rw [hdata2]
          exact updD_self _ _ _
        rw [h2]
        have hmem : n ∈ (n :: C') ++ [v] := by simp
        simp only [hmem, if_true, Option.getD_some]
        split_ifs <;> rfl
      · have h2 : data2 n = data n := by
          rw [hdata2]
          exact updD_other _ hn
        rw [h2, List.cons_append]
        simp only [List.mem_cons, hn, false_or]

theorem idxOf_congr {st st' : TarjanState} {n : ℕ} (h : st'.data n = st.data n) :
    idxOf st' n = idxOf st n := by
  simp [idxOf, h]

theorem lowOf_congr {st st' : TarjanState} {n : ℕ} (h : st'.data n = st.data n) :
    lowOf st' n = lowOf st n := by
  simp [lowOf, h]

theorem frameFlat_cons (C : List ℕ) (v : ℕ) (F : List (List ℕ × ℕ)) :
    frameFlat ((C, v) :: F) = C ++ v :: frameFlat F := by
  simp [frameFlat]

theorem mem_frameFlat {F : List (List ℕ × ℕ)} {f : List ℕ × ℕ} (hf : f ∈ F) {w : ℕ}
    (hw : w ∈ f.1 ∨ w = f.2) : w ∈ frameFlat F := by
  unfold frameFlat
  rw [List.mem_flatMap]
  refine ⟨f, hf, ?_⟩
  rcases hw with h | h
  · exact List.mem_append_left _ h
  · exact List.mem_append_right _ (by simp [h])

theorem sorted_split {st : TarjanState}
    (hs : st.S.Pairwise (fun a b => idxOf st b < idxOf st a))
    {C : List ℕ} {v : ℕ} {rest : List ℕ} (hshape : st.S = C ++ v :: rest) :
    (∀ c ∈ C, idxOf st v < idxOf st c) ∧ (∀ r ∈ rest, idxOf st r < idxOf st v) := by
  rw [hshape, List.pairwise_append] at hs
  obtain ⟨_, h2, h3⟩ := hs
  rw [List.pairwise_cons] at h2
  exact ⟨fun c hc => h3 c hc v (List.mem_cons_self _ _), fun r hr => h2.1 r hr⟩

theorem stack_mem_isSome {g : SccGraph} {st : TarjanState} (inv : Inv g st) {w : ℕ}
    (hw : w ∈ st.S) : (st.data w).isSome := by
  obtain ⟨d, hd, _⟩ := (inv.stack_flag w).1 hw
  simp [hd]

theorem not_mem_stack_of_unvis {g : SccGraph} {st : TarjanState} (inv : Inv g st) {v : ℕ}
    (h : st.data v = none) : v ∉ st.S := by
  intro hmem
  obtain ⟨d, hd, _⟩ := (inv.stack_flag v).1 hmem
  rw [h] at hd
  cases hd

theorem not_inEm_of_unvis {g : SccGraph} {st : TarjanState} (inv : Inv g st) {v : ℕ}
    (h : st.data v = none) : ¬ inEm st v := by
  intro hmem
  have := (inv.vis_iff v).2 (Or.inr hmem)
  rw [h] at this
  cases this

theorem not_mem_stack_of_inEm {g : SccGraph} {st : TarjanState} (inv : Inv g st) {v : ℕ}
    (h : inEm st v) : v ∉ st.S := by
  intro hmem
  obtain ⟨d, hd, hflag⟩ := (inv.stack_flag v).1 hmem
  obtain ⟨c, hc, hvc⟩ := h
  obtain ⟨d', hd', hflag'⟩ := inv.em_flag c hc v hvc
  rw [hd] at hd'
  cases hd'
  rw [hflag] at hflag'
  cases hflag'

theorem push_spec {g : SccGraph} {st0 : TarjanState} {v : ℕ} {F : List (List ℕ × ℕ)}
    (pre : Pre g st0 v F) :
    Inv g ⟨st0.index + 1, v :: st0.S, updD st0.data v ⟨st0.index, st0.index, true⟩, st0.sccs⟩ ∧
      ChainInv g
        ⟨st0.index + 1, v :: st0.S, updD st0.data v ⟨st0.index, st0.index, true⟩, st0.sccs⟩
        (([], v) :: F) := by
  obtain ⟨inv, chain, unvis, vmem, link⟩ := pre
  set st1 : TarjanState :=
    ⟨st0.index + 1, v :: st0.S, updD st0.data v ⟨st0.index, st0.index, true⟩, st0.sccs⟩
    with hst1
  have hvS : v ∉ st0.S := not_mem_stack_of_unvis inv unvis
  have hvEm : ¬ inEm st0 v := not_inEm_of_unvis inv unvis
  have hdat : ∀ n, n ≠ v → st1.data n = st0.data n := fun n hn => updD_other _ hn
  have hdatv : st1.data v = some ⟨st0.index, st0.index, true⟩ := updD_self _ _ _
  have hidxv : idxOf st1 v = st0.index := idxOf_eq hdatv
  have hlowv : lowOf st1 v = st0.index := lowOf_eq hdatv
  have hmemS_ne : ∀ w ∈ st0.S, w ≠ v := fun w hw he => hvS (he ▸ hw)
  have hdat2 : ∀ n, n ≠ v →
      updD st0.data v ⟨st0.index, st0.index, true⟩ n = st0.data n := hdat
  have hdatv2 : updD st0.data v ⟨st0.index, st0.index, true⟩ v =
      some ⟨st0.index, st0.index, true⟩ := hdatv
  have hidxS : ∀ w ∈ st0.S, idxOf st1 w = idxOf st0 w :=
    fun w hw => idxOf_congr (hdat w (hmemS_ne w hw))
  have hlowS : ∀ w ∈ st0.S, lowOf st1 w = lowOf st0 w :=
    fun w hw => lowOf_congr (hdat w (hmemS_ne w hw))
  refine ⟨⟨?_, ?_, ?_, ?_, ?_, ?_, ?_, ?_, ?_, ?_, ?_, ?_, ?_, ?_, ?_, ?_⟩, ?_, ?_, ?_, ?_, ?_, ?_, ?_⟩
  · exact Nat.le_succ_of_le inv.one_le
  · intro u d hd
    by_cases hu : u = v
    · subst hu
      rw [hdatv] at hd
      cases hd
      exact inv.one_le
    · rw [hdat u hu] at hd
      exact inv.idx_pos u d hd
  · intro u d hd
    by_cases hu : u = v
    · subst hu
      rw [hdatv] at hd
      cases hd
      exact Nat.lt_succ_self _
    · rw [hdat u hu] at hd
      exact Nat.lt_succ_of_lt (inv.idx_lt u d hd)
  · intro u d hd
    by_cases hu : u = v
    · subst hu
      rw [hdatv] at hd
      cases hd
      exact le_refl _
    · rw [hdat u hu] at hd
      exact inv.low_le u d hd
  · intro u d hd
    by_cases hu : u = v
    · subst hu
      exact vmem
    · rw [hdat u hu] at hd
      exact inv.mem_nodes u d hd
  · intro u u' du du' hdu hdu' heq
    by_cases hu : u = v <;> by_cases hu' : u' = v
    · rw [hu, hu']
    · subst hu
      rw [hdatv] at hdu
      cases hdu
      rw [hdat u' hu'] at hdu'
      have := inv.idx_lt u' du' hdu'
      simp only at heq
      omega
    · subst hu'
      rw [hdatv] at hdu'
      cases hdu'
      rw [hdat u hu] at hdu
      have := inv.idx_lt u du hdu
      simp only at heq
      omega
    · rw [hdat u hu] at hdu
      rw [hdat u' hu'] at hdu'
      exact inv.inj u u' du du' hdu hdu' heq
  · intro w
    by_cases hw : w = v
    · subst hw
      constructor
      · intro _
        exact ⟨_, hdatv, rfl⟩
      · intro _
        exact List.mem_cons_self _ _
    · show w ∈ v :: st0.S ↔ _
      rw [List.mem_cons]
      simp only [hw, false_or, hdat2 w hw]
      exact inv.stack_flag w
  · refine List.pairwise_cons.2 ⟨?_, ?_⟩
    · intro w hw
      rw [hidxS w hw, hidxv]
      obtain ⟨d, hd, _⟩ := (inv.stack_flag w).1 hw
      rw [idxOf_eq hd]
      exact inv.idx_lt w d hd
    · exact inv.sorted.imp_of_mem (fun ha hb h => by
        rw [hidxS _ ha, hidxS _ hb]
        exact h)
  · intro w hw
    rcases List.mem_cons.1 hw with rfl | hw'
    · exact ⟨w, List.mem_cons_self _ _, by rw [hidxv, hlowv], reach_refl g w⟩
    · obtain ⟨t, ht, hti, htr⟩ := inv.ls w hw'
      exact ⟨t, List.mem_cons_of_mem _ ht,
        by rw [hidxS t ht, hlowS w hw']; exact hti, htr⟩
  · exact inv.em_closed
  · exact inv.em_scc
  · intro c hc w hwc
    have hne : w ≠ v := fun he => hvEm (he ▸ ⟨c, hc, hwc⟩)
    rw [hdat w hne]
    exact inv.em_flag c hc w hwc
  · exact inv.em_order
  · exact inv.em_disj
  · exact inv.em_nodup
  · intro w
    by_cases hw : w = v
    · subst hw
      simp [hdatv2]
    · show _ ↔ w ∈ v :: st0.S ∨ _
      rw [List.mem_cons]
      simp only [hw, false_or, hdat2 w hw]
      exact inv.vis_iff w
  · show v :: st0.S = frameFlat (([], v) :: F)
    rw [frameFlat_cons, chain.shape]
    rfl
  · cases F with
    | nil => simp
    | cons f0 rest =>
      exact List.chain'_cons.2 ⟨link f0 rest rfl, chain.edges⟩
  · intro f hf
    rcases List.mem_cons.1 hf with rfl | hf'
    · exact vmem
    · exact chain.owner_nodes f hf'
  · intro f hf w hwf
    rcases List.mem_cons.1 hf with rfl | hf'
    · cases hwf
    · have hwflat : w ∈ st0.S := by
        rw [chain.shape]
        exact mem_frameFlat hf' (Or.inl hwf)
      rw [hlowS w hwflat, hidxS w hwflat]
      exact chain.fin_low f hf' w hwf
  · intro f hf w hwf s hs
    rcases List.mem_cons.1 hf with rfl | hf'
    · cases hwf
    · have hwflat : w ∈ st0.S := by
        rw [chain.shape]
        exact mem_frameFlat hf' (Or.inl hwf)
      rcases chain.fin_lc1 f hf' w hwf s hs with h | ⟨hsS, hle⟩
      · exact Or.inl h
      · refine Or.inr ⟨List.mem_cons_of_mem _ hsS, ?_⟩
        rw [hlowS w hwflat, hidxS s hsS]
        exact hle
  · intro f hf w hwf
    rcases List.mem_cons.1 hf with rfl | hf'
    · cases hwf
    · have hwflat : w ∈ st0.S := by
        rw [chain.shape]
        exact mem_frameFlat hf' (Or.inl hwf)
      have hoflat : f.2 ∈ st0.S := by
        rw [chain.shape]
        exact mem_frameFlat hf' (Or.inr rfl)
      rw [hlowS w hwflat, hlowS f.2 hoflat]
      exact chain.seg_min f hf' w hwf
  · intro f hf w hwf
    rcases List.mem_cons.1 hf with rfl | hf'
    · cases hwf
    · exact chain.seg_reach f hf' w hwf

theorem minupd_full {g : SccGraph} {st : TarjanState} {v : ℕ} {C : List ℕ}
    {F : List (List ℕ × ℕ)} {dv : TarjanData} {X : ℕ}
    (inv : Inv g st) (chainw : ChainInvW g st C v F)
    (hdv : st.data v = some dv)
    (hX : dv.lowlink ≤ X ∨ ∃ t ∈ st.S, idxOf st t = X ∧ g.Reach v t)
    (hminC : ∀ x ∈ C, min dv.lowlink X ≤ lowOf st x) :
    Inv g ⟨st.index, st.S, updD st.data v ⟨dv.index, min dv.lowlink X, dv.onstack⟩, st.sccs⟩ ∧
      ChainInv g
        ⟨st.index, st.S, updD st.data v ⟨dv.index, min dv.lowlink X, dv.onstack⟩, st.sccs⟩
        ((C, v) :: F) := by
  set st' : TarjanState :=
    ⟨st.index, st.S, updD st.data v ⟨dv.index, min dv.lowlink X, dv.onstack⟩, st.sccs⟩
    with hst'
  have hdat : ∀ n, n ≠ v → st'.data n = st.data n := fun n hn => updD_other _ hn
  have hdat2 : ∀ n, n ≠ v →
      updD st.data v ⟨dv.index, min dv.lowlink X, dv.onstack⟩ n = st.data n := hdat
  have hdatv : st'.data v = some ⟨dv.index, min dv.lowlink X, dv.onstack⟩ := updD_self _ _ _
  have hdatv2 : updD st.data v ⟨dv.index, min dv.lowlink X, dv.onstack⟩ v =
      some ⟨dv.index, min dv.lowlink X, dv.onstack⟩ := hdatv
  have hvS : v ∈ st.S := by
    rw [chainw.shape, frameFlat_cons]
    exact List.mem_append.2 (Or.inr (List.mem_cons_self _ _))
  have hidx : ∀ n, idxOf st' n = idxOf st n := by
    intro n
    by_cases hn : n = v
    · subst hn
      rw [idxOf_eq hdatv, idxOf_eq hdv]
    · exact idxOf_congr (hdat n hn)
  have hlow : ∀ n, n ≠ v → lowOf st' n = lowOf st n := fun n hn => lowOf_congr (hdat n hn)
  have hlowv : lowOf st' v = min dv.lowlink X := lowOf_eq hdatv
  have hnodup : st.S.Nodup := pairwise_lt_nodup inv.sorted
  have hvsplit : v ∉ C ∧ v ∉ frameFlat F := by
    have h := hnodup
    rw [chainw.shape, frameFlat_cons, List.nodup_append] at h
    obtain ⟨_, hrest, hdisj⟩ := h
    rw [List.nodup_cons] at hrest
    exact ⟨fun hvC => hdisj hvC (List.mem_cons_self _ _), hrest.1⟩
  refine ⟨⟨?_, ?_, ?_, ?_, ?_, ?_, ?_, ?_, ?_, ?_, ?_, ?_, ?_, ?_, ?_, ?_⟩, ?_, ?_, ?_, ?_, ?_, ?_, ?_⟩
  · exact inv.one_le
  · intro u d hd
    by_cases hu : u = v
    · subst hu
      rw [hdatv] at hd
      cases hd
      exact inv.idx_pos u dv hdv
    · rw [hdat u hu] at hd
      exact inv.idx_pos u d hd
  · intro u d hd
    by_cases hu : u = v
    · subst hu
      rw [hdatv] at hd
      cases hd
      exact inv.idx_lt u dv hdv
    · rw [hdat u hu] at hd
      exact inv.idx_lt u d hd
  · intro u d hd
    by_cases hu : u = v
    · subst hu
      rw [hdatv] at hd
      cases hd
      exact le_trans (min_le_left _ _) (inv.low_le u dv hdv)
    · rw [hdat u hu] at hd
      exact inv.low_le u d hd
  · intro u d hd
    by_cases hu : u = v
    · subst hu
      exact inv.mem_nodes u dv hdv
    · rw [hdat u hu] at hd
      exact inv.mem_nodes u d hd
  · intro u u' du du' hdu hdu' heq
    by_cases hu : u = v <;> by_cases hu' : u' = v
    · rw [hu, hu']
    · subst hu
      rw [hdatv] at hdu
      cases hdu
      rw [hdat u' hu'] at hdu'
      exact inv.inj u u' dv du' hdv hdu' heq
    · subst hu'
      rw [hdatv] at hdu'
      cases hdu'
      rw [hdat u hu] at hdu
      exact inv.inj u u' du dv hdu hdv heq
    · rw [hdat u hu] at hdu
      rw [hdat u' hu'] at hdu'
      exact inv.inj u u' du du' hdu hdu' heq
  · intro w
    by_cases hw : w = v
    · subst hw
      have hflag : dv.onstack = true := by
        obtain ⟨d, hd, hfl⟩ := (inv.stack_flag w).1 hvS
        rw [hdv] at hd
        cases hd
        exact hfl
      constructor
      · intro _
        exact ⟨_, hdatv, hflag⟩
      · intro _
        exact hvS
    · simp only [hdat2 w hw]
      exact inv.stack_flag w
  · exact inv.sorted.imp_of_mem (fun _ _ h => by rw [hidx, hidx]; exact h)
  · intro w hw
    by_cases hwv : w = v
    · subst hwv
      rw [hlowv]
      rcases le_total dv.lowlink X with hle | hle
      · obtain ⟨t0, ht0, hti0, htr0⟩ := inv.ls w hw
        rw [lowOf_eq hdv] at hti0
        exact ⟨t0, ht0, by rw [hidx t0, min_eq_left hle]; exact hti0, htr0⟩
      · rcases hX with hX1 | ⟨t, ht, hti, htr⟩
        · have hxeq : X = dv.lowlink := le_antisymm hle hX1
          obtain ⟨t0, ht0, hti0, htr0⟩ := inv.ls w hw
          rw [lowOf_eq hdv] at hti0
          refine ⟨t0, ht0, ?_, htr0⟩
          rw [hidx t0, hxeq, min_self]
          exact hti0
        · exact ⟨t, ht, by rw [hidx t, min_eq_right hle]; exact hti, htr⟩
    · obtain ⟨t, ht, hti, htr⟩ := inv.ls w hw
      exact ⟨t, ht, by rw [hidx t, hlow w hwv]; exact hti, htr⟩
  · exact inv.em_closed
  · exact inv.em_scc
  · intro c hc w hwc
    have hne : w ≠ v := fun he => not_mem_stack_of_inEm inv ⟨c, hc, hwc⟩ (he ▸ hvS)
    rw [hdat w hne]
    exact inv.em_flag c hc w hwc
  · exact inv.em_order
  · exact inv.em_disj
  · exact inv.em_nodup
  · intro w
    by_cases hw : w = v
    · subst hw
      simp [hdatv2, hvS]
    · simp only [hdat2 w hw]
      exact inv.vis_iff w
  · exact chainw.shape
  · exact chainw.edges
  · exact chainw.owner_nodes
  · intro f hf w hwf
    have hne : w ≠ v := by
      rcases List.mem_cons.1 hf with rfl | hf'
      · exact fun he => hvsplit.1 (he ▸ hwf)
      · exact fun he => hvsplit.2 (he ▸ mem_frameFlat hf' (Or.inl hwf))
    rw [hlow w hne, hidx w]
    exact chainw.fin_low f hf w hwf
  · intro f hf w hwf s hs
    have hne : w ≠ v := by
      rcases List.mem_cons.1 hf with rfl | hf'
      · exact fun he => hvsplit.1 (he ▸ hwf)
      · exact fun he => hvsplit.2 (he ▸ mem_frameFlat hf' (Or.inl hwf))
    rcases chainw.fin_lc1 f hf w hwf s hs with h | ⟨hsS, hle⟩
    · exact Or.inl h
    · exact Or.inr ⟨hsS, by rw [hlow w hne, hidx s]; exact hle⟩
  · intro f hf w hwf
    rcases List.mem_cons.1 hf with rfl | hf'
    · have hne : w ≠ v := fun he => hvsplit.1 (he ▸ hwf)
      rw [hlow w hne]
      show lowOf st' v ≤ _
      rw [hlowv]
      exact hminC w hwf
    · have hneo : f.2 ≠ v := fun he => hvsplit.2 (he ▸ mem_frameFlat hf' (Or.inr rfl))
      have hnew : w ≠ v := fun he => hvsplit.2 (he ▸ mem_frameFlat hf' (Or.inl hwf))
      rw [hlow f.2 hneo, hlow w hnew]
      exact chainw.seg_minF f hf' w hwf
  · exact chainw.seg_reach

theorem inEm_reach {g : SccGraph} {st : TarjanState} (inv : Inv g st) {u x : ℕ}
    (hu : inEm st u) (hr : g.Reach u x) : inEm st x := by
  induction hr with
  | refl => exact hu
  | tail _ hbc ih => exact inv.em_closed _ ih _ hbc.2

theorem reach_stay {g : SccGraph} {st : TarjanState} (inv : Inv g st) {P : List ℕ}
    (hclose : ∀ z ∈ P, ∀ s ∈ g.succs z, s ∈ P ∨ inEm st s) {z u : ℕ} (hz : z ∈ P)
    (hr : g.Reach z u) : u ∈ P ∨ inEm st u := by
  induction hr with
  | refl => exact Or.inl hz
  | tail _ hbc ih =>
    rcases ih with h | h
    · exact hclose _ h _ hbc.2
    · exact Or.inr (inv.em_closed _ h _ hbc.2)

theorem pop_spec {g : SccGraph} {st2 : TarjanState} {v : ℕ} {C : List ℕ}
    {F : List (List ℕ × ℕ)} {dv : TarjanData}
    (inv : Inv g st2) (chain : ChainInv g st2 ((C, v) :: F))
    (hdv : st2.data v = some dv) (hpop : dv.lowlink = dv.index)
    (hproc : ∀ s ∈ g.succs v, inEm st2 s ∨ (s ∈ st2.S ∧ lowOf st2 v ≤ idxOf st2 s)) :
    ∃ data3, popScc v st2.S st2.data = some (C ++ [v], frameFlat F, data3) ∧
      (∀ n, n ∉ C ++ [v] → data3 n = st2.data n) ∧
      (∀ n, (data3 n).isSome = (st2.data n).isSome) ∧
      (∀ n, idxOf ⟨st2.index, frameFlat F, data3, st2.sccs ++ [C ++ [v]]⟩ n = idxOf st2 n) ∧
      (∀ n, lowOf ⟨st2.index, frameFlat F, data3, st2.sccs ++ [C ++ [v]]⟩ n = lowOf st2 n) ∧
      Inv g ⟨st2.index, frameFlat F, data3, st2.sccs ++ [C ++ [v]]⟩ ∧
      inEm ⟨st2.index, frameFlat F, data3, st2.sccs ++ [C ++ [v]]⟩ v := by
  have hshape : st2.S = C ++ v :: frameFlat F := by
    rw [chain.shape, frameFlat_cons]
  have hnodup : st2.S.Nodup := pairwise_lt_nodup inv.sorted
  have hsplitn := hnodup
  rw [hshape, List.nodup_append] at hsplitn
  obtain ⟨hndC, hndrest, hdisj⟩ := hsplitn
  have hvC : v ∉ C := fun h => hdisj h (List.mem_cons_self _ _)
  rw [List.nodup_cons] at hndrest
  have hvF : v ∉ frameFlat F := hndrest.1
  obtain ⟨hCidx, hFidx⟩ := sorted_split inv.sorted hshape
  have hPmem : ∀ z ∈ C ++ [v], z ∈ st2.S := by
    intro z hz
    rw [hshape]
    rcases List.mem_append.1 hz with h | h
    · exact List.mem_append_left _ h
    · simp only [List.mem_singleton] at h
      exact h ▸ List.mem_append_right _ (List.mem_cons_self _ _)
  have hPidx : ∀ z ∈ C ++ [v], idxOf st2 v ≤ idxOf st2 z := by
    intro z hz
    rcases List.mem_append.1 hz with h | h
    · exact le_of_lt (hCidx z h)
    · simp only [List.mem_singleton] at h
      exact le_of_eq (by rw [h])
  have hstackP : ∀ z ∈ st2.S, idxOf st2 v ≤ idxOf st2 z → z ∈ C ++ [v] := by
    intro z hz hle
    rw [hshape] at hz
    rcases List.mem_append.1 hz with h | h
    · exact List.mem_append_left _ h
    · rcases List.mem_cons.1 h with rfl | h2
      · exact List.mem_append_right _ (List.mem_singleton.2 rfl)
      · exact absurd hle (not_le.2 (hFidx z h2))
  have hlowvi : lowOf st2 v = idxOf st2 v := by
    rw [lowOf_eq hdv, idxOf_eq hdv]
    exact hpop
  have hPlow : ∀ z ∈ C ++ [v], idxOf st2 v ≤ lowOf st2 z := by
    intro z hz
    rcases List.mem_append.1 hz with h | h
    · rw [← hlowvi]
      exact chain.seg_min (C, v) (List.mem_cons_self _ _) z h
    · simp only [List.mem_singleton] at h
      subst h
      rw [← hlowvi]
  have hclose : ∀ z ∈ C ++ [v], ∀ s ∈ g.succs z, s ∈ C ++ [v] ∨ inEm st2 s := by
    intro z hz s hs
    rcases List.mem_append.1 hz with h | h
    · rcases chain.fin_lc1 (C, v) (List.mem_cons_self _ _) z h s hs with hEm | ⟨hsS, hle⟩
      · exact Or.inr hEm
      · exact Or.inl (hstackP s hsS (le_trans (hPlow z hz) hle))
    · simp only [List.mem_singleton] at h
      subst h
      rcases hproc s hs with hEm | ⟨hsS, hle⟩
      · exact Or.inr hEm
      · exact Or.inl (hstackP s hsS (le_trans (le_of_eq hlowvi.symm) hle))
  have hreach_from : ∀ z ∈ C ++ [v], g.Reach v z := by
    intro z hz
    rcases List.mem_append.1 hz with h | h
    · exact chain.seg_reach (C, v) (List.mem_cons_self _ _) z h
    · simp only [List.mem_singleton] at h
      exact h ▸ reach_refl g v
  have hreach_to : ∀ z ∈ C ++ [v], g.Reach z v := by
    have chase : ∀ n z, z ∈ C ++ [v] → idxOf st2 z = n → g.Reach z v := by
      intro n
      induction n using Nat.strong_induction_on with
      | _ n ih =>
        intro z hz hzn
        rcases List.mem_append.1 hz with h | h
        · have hfl : lowOf st2 z < idxOf st2 z :=
            chain.fin_low (C, v) (List.mem_cons_self _ _) z h
          obtain ⟨t, ht, hti, htr⟩ := inv.ls z (hPmem z hz)
          have htP : t ∈ C ++ [v] := hstackP t ht (by rw [hti]; exact hPlow z hz)
          have htlt : idxOf st2 t < n := by
            rw [hti, ← hzn]
            exact hfl
          exact reach_trans htr (ih _ htlt t htP rfl)
        · simp only [List.mem_singleton] at h
          exact h ▸ reach_refl g v
    exact fun z hz => chase (idxOf st2 z) z hz rfl
  have hsccchar : ∀ w, w ∈ C ++ [v] ↔ g.SameScc v w := by
    intro w
    constructor
    · intro hw
      exact ⟨hreach_from w hw, hreach_to w hw⟩
    · intro ⟨hvw, hwv⟩
      rcases reach_stay inv hclose (List.mem_append_right C (List.mem_singleton.2 rfl)) hvw
        with h | h
      · exact h
      · exfalso
        have : inEm st2 v := inEm_reach inv h hwv
        exact not_mem_stack_of_inEm inv this (hPmem v (List.mem_append_right _ (by simp)))
  obtain ⟨data3, hrun, hpt⟩ := popScc_spec v (frameFlat F) C st2.data hvC
  have hrun' : popScc v st2.S st2.data = some (C ++ [v], frameFlat F, data3) := by
    rw [hshape]
    exact hrun
  have hPsome : ∀ n ∈ C ++ [v], ∃ d, st2.data n = some d ∧ data3 n = some ⟨d.index, d.lowlink, false⟩ := by
    intro n hn
    have h1 := stack_mem_isSome inv (hPmem n hn)
    obtain ⟨d, hd⟩ := Option.isSome_iff_exists.1 h1
    refine ⟨d, hd, ?_⟩
    rw [hpt n]
    simp [hn, hd]
  have hOther : ∀ n, n ∉ C ++ [v] → data3 n = st2.data n := by
    intro n hn
    rw [hpt n]
    simp [hn]
  have hSome : ∀ n, (data3 n).isSome = (st2.data n).isSome := by
    intro n
    by_cases hn : n ∈ C ++ [v]
    · obtain ⟨d, hd, hd3⟩ := hPsome n hn
      rw [hd, hd3]
      rfl
    · rw [hOther n hn]
  have hidx3 : ∀ n, idxOf ⟨st2.index, frameFlat F, data3, st2.sccs ++ [C ++ [v]]⟩ n = idxOf st2 n := by
    intro n
    by_cases hn : n ∈ C ++ [v]
    · obtain ⟨d, hd, hd3⟩ := hPsome n hn
      show ((data3 n).getD _).index = _
      rw [hd3, idxOf_eq hd]
      rfl
    · exact idxOf_congr (hOther n hn)
  have hlow3 : ∀ n, lowOf ⟨st2.index, frameFlat F, data3, st2.sccs ++ [C ++ [v]]⟩ n = lowOf st2 n := by
    intro n
    by_cases hn : n ∈ C ++ [v]
    · obtain ⟨d, hd, hd3⟩ := hPsome n hn
      show ((data3 n).getD _).lowlink = _
      rw [hd3, lowOf_eq hd]
      rfl
    · exact lowOf_congr (hOther n hn)
  have hdisjPF : ∀ n ∈ C ++ [v], n ∉ frameFlat F := by
    intro n hn
    rcases List.mem_append.1 hn with h | h
    · exact fun hf => hdisj h (List.mem_cons_of_mem _ hf)
    · simp only [List.mem_singleton] at h
      exact h ▸ hvF
  have hvmemP : v ∈ C ++ [v] := List.mem_append_right _ (List.mem_singleton.2 rfl)
  have hnewEm : inEm ⟨st2.index, frameFlat F, data3, st2.sccs ++ [C ++ [v]]⟩ v :=
    ⟨C ++ [v], by simp, hvmemP⟩
  refine ⟨data3, hrun', hOther, hSome, hidx3, hlow3,
    ⟨?_, ?_, ?_, ?_, ?_, ?_, ?_, ?_, ?_, ?_, ?_, ?_, ?_, ?_, ?_, ?_⟩, hnewEm⟩
  · exact inv.one_le
  · intro u d hd
    replace hd : data3 u = some d := hd
    by_cases hu : u ∈ C ++ [v]
    · obtain ⟨d0, hd0, hd3⟩ := hPsome u hu
      rw [hd3] at hd
      cases hd
      exact inv.idx_pos u d0 hd0
    · rw [hOther u hu] at hd
      exact inv.idx_pos u d hd
  · intro u d hd
    replace hd : data3 u = some d := hd
    by_cases hu : u ∈ C ++ [v]
    · obtain ⟨d0, hd0, hd3⟩ := hPsome u hu
      rw [hd3] at hd
      cases hd
      exact inv.idx_lt u d0 hd0
    · rw [hOther u hu] at hd
      exact inv.idx_lt u d hd
  · intro u d hd
    replace hd : data3 u = some d := hd
    by_cases hu : u ∈ C ++ [v]
    · obtain ⟨d0, hd0, hd3⟩ := hPsome u hu
      rw [hd3] at hd
      cases hd
      exact inv.low_le u d0 hd0
    · rw [hOther u hu] at hd
      exact inv.low_le u d hd
  · intro u d hd
    replace hd : data3 u = some d := hd
    by_cases hu : u ∈ C ++ [v]
    · obtain ⟨d0, hd0, hd3⟩ := hPsome u hu
      rw [hd3] at hd
      cases hd
      exact inv.mem_nodes u d0 hd0
    · rw [hOther u hu] at hd
      exact inv.mem_nodes u d hd
  · intro u u' du du' hdu hdu' heq
    replace hdu : data3 u = some du := hdu
    replace hdu' : data3 u' = some du' := hdu'
    have key : ∀ w dw, data3 w = some dw → ∃ dw0, st2.data w = some dw0 ∧ dw0.index = dw.index := by
      intro w dw hdw
      by_cases hw : w ∈ C ++ [v]
      · obtain ⟨d0, hd0, hd3⟩ := hPsome w hw
        rw [hd3] at hdw
        cases hdw
        exact ⟨d0, hd0, rfl⟩
      · rw [hOther w hw] at hdw
        exact ⟨dw, hdw, rfl⟩
    obtain ⟨du0, hdu0, hi⟩ := key u du hdu
    obtain ⟨du0', hdu0', hi'⟩ := key u' du' hdu'
    exact inv.inj u u' du0 du0' hdu0 hdu0' (by rw [hi, hi', heq])
  · intro w
    constructor
    · intro hw
      have hwP : w ∉ C ++ [v] := fun h => hdisjPF w h hw
      have hwS : w ∈ st2.S := by
        rw [hshape]
        exact List.mem_append_right _ (List.mem_cons_of_mem _ hw)
      obtain ⟨d, hd, hfl⟩ := (inv.stack_flag w).1 hwS
      exact ⟨d, show data3 w = some d by rw [hOther w hwP]; exact hd, hfl⟩
    · intro ⟨d, hd, hfl⟩
      replace hd : data3 w = some d := hd
      by_cases hw : w ∈ C ++ [v]
      · obtain ⟨d0, hd0, hd3⟩ := hPsome w hw
        rw [hd3] at hd
        cases hd
        cases hfl
      · rw [hOther w hw] at hd
        have hwS : w ∈ st2.S := (inv.stack_flag w).2 ⟨d, hd, hfl⟩
        rw [hshape] at hwS
        rcases List.mem_append.1 hwS with h | h
        · exact absurd (List.mem_append_left [v] h) hw
        · rcases List.mem_cons.1 h with rfl | h2
          · exact absurd hvmemP hw
          · exact h2
  · have hsub : List.Sublist (frameFlat F) st2.S := by
      rw [hshape]
      exact (List.sublist_cons_self v (frameFlat F)).trans
        (List.sublist_append_right C (v :: frameFlat F))
    exact (inv.sorted.sublist hsub).imp_of_mem (fun ha hb h => by
      rw [hidx3, hidx3]
      exact h)
  · intro w hw
    obtain ⟨t, ht, hti, htr⟩ := inv.ls w (by
      rw [hshape]
      exact List.mem_append_right _ (List.mem_cons_of_mem _ hw))
    have hwP : w ∉ C ++ [v] := fun h => hdisjPF w h hw
    have htF : t ∈ frameFlat F := by
      rw [hshape] at ht
      rcases List.mem_append.1 ht with h | h
      · exfalso
        have h1 : idxOf st2 v < idxOf st2 t := hCidx t h
        have h2 : idxOf st2 t = lowOf st2 w := hti
        have h3 : lowOf st2 w ≤ idxOf st2 w := by
          obtain ⟨d, hd, _⟩ := (inv.stack_flag w).1 ((inv.stack_flag w).2 (by
            obtain ⟨d, hd, hfl⟩ := (inv.stack_flag w).1 (by
              rw [hshape]
              exact List.mem_append_right _ (List.mem_cons_of_mem _ hw))
            exact ⟨d, hd, hfl⟩))
          rw [lowOf_eq hd, idxOf_eq hd]
          exact inv.low_le w d hd
        have h4 : idxOf st2 w < idxOf st2 v := hFidx w hw
        omega
      · rcases List.mem_cons.1 h with rfl | h2
        · exfalso
          have h2 : idxOf st2 t = lowOf st2 w := hti
          have h3 : lowOf st2 w ≤ idxOf st2 w := by
            obtain ⟨d, hd, _⟩ := (inv.stack_flag w).1 (by
              rw [hshape]
              exact List.mem_append_right _ (List.mem_cons_of_mem _ hw))
            rw [lowOf_eq hd, idxOf_eq hd]
            exact inv.low_le w d hd
          have h4 : idxOf st2 w < idxOf st2 t := hFidx w hw
          omega
        · exact h2
    refine ⟨t, htF, ?_, htr⟩
    rw [hidx3 t, hlow3 w]
    exact hti
  · intro u hu s hs
    obtain ⟨c, hc, huc⟩ := hu
    rcases List.mem_append.1 hc with hcold | hcnew
    · have : inEm st2 s := inv.em_closed u ⟨c, hcold, huc⟩ s hs
      obtain ⟨c', hc', hsc'⟩ := this
      exact ⟨c', List.mem_append_left _ hc', hsc'⟩
    · simp only [List.mem_singleton] at hcnew
      subst hcnew
      rcases hclose u huc s hs with h | h
      · exact ⟨C ++ [v], by simp, h⟩
      · obtain ⟨c', hc', hsc'⟩ := h
        exact ⟨c', List.mem_append_left _ hc', hsc'⟩
  · intro c hc
    rcases List.mem_append.1 hc with hcold | hcnew
    · exact inv.em_scc c hcold
    · simp only [List.mem_singleton] at hcnew
      subst hcnew
      refine ⟨by simp, ?_⟩
      intro u hu w
      have huscc : g.SameScc v u := (hsccchar u).1 hu
      rw [hsccchar w]
      constructor
      · intro hvw
        exact ⟨reach_trans huscc.2 hvw.1, reach_trans hvw.2 huscc.1⟩
      · intro huw
        exact ⟨reach_trans huscc.1 huw.1, reach_trans huw.2 huscc.2⟩
  · intro c hc w hwc
    rcases List.mem_append.1 hc with hcold | hcnew
    · have hwem : inEm st2 w := ⟨c, hcold, hwc⟩
      have hwnS : w ∉ st2.S := not_mem_stack_of_inEm inv hwem
      have hwP : w ∉ C ++ [v] := fun h => hwnS (hPmem w h)
      obtain ⟨d, hd, hfl⟩ := inv.em_flag c hcold w hwc
      exact ⟨d, show data3 w = some d by rw [hOther w hwP]; exact hd, hfl⟩
    · simp only [List.mem_singleton] at hcnew
      subst hcnew
      obtain ⟨d0, hd0, hd3⟩ := hPsome w hwc
      exact ⟨_, hd3, rfl⟩
  · intro i j ci cj hci hcj u hu w hw hsucc
    have hilen : i < st2.sccs.length + 1 := by
      have := List.get?_eq_some.1 hci
      simpa using this.1
    have hjlen : j < st2.sccs.length + 1 := by
      have := List.get?_eq_some.1 hcj
      simpa using this.1
    by_cases hi : i < st2.sccs.length
    · have hci' : st2.sccs.get? i = some ci := by
        rw [← hci, List.get?_append hi]
      by_cases hj : j < st2.sccs.length
      · have hcj' : st2.sccs.get? j = some cj := by
          rw [← hcj, List.get?_append hj]
        exact inv.em_order i j ci cj hci' hcj' u hu w hw hsucc
      · exfalso
        have hjeq : j = st2.sccs.length := by omega
        have hcjP : cj = C ++ [v] := by
          rw [hjeq] at hcj
          rw [List.get?_append_right (le_refl _)] at hcj
          simp at hcj
          exact hcj.symm
        have : inEm st2 w := inv.em_closed u ⟨ci, List.get?_mem hci', hu⟩ w hsucc
        have hwS : w ∈ st2.S := hPmem w (hcjP ▸ hw)
        exact not_mem_stack_of_inEm inv this hwS
    · omega
  · intro i j ci cj hci hcj w hwi hwj
    have hilen : i < st2.sccs.length + 1 := by
      have := List.get?_eq_some.1 hci
      simpa using this.1
    have hjlen : j < st2.sccs.length + 1 := by
      have := List.get?_eq_some.1 hcj
      simpa using this.1
    by_cases hi : i < st2.sccs.length <;> by_cases hj : j < st2.sccs.length
    · have hci' : st2.sccs.get? i = some ci := by
        rw [← hci, List.get?_append hi]
      have hcj' : st2.sccs.get? j = some cj := by
        rw [← hcj, List.get?_append hj]
      exact inv.em_disj i j ci cj hci' hcj' w hwi hwj
    · exfalso
      have hci' : st2.sccs.get? i = some ci := by
        rw [← hci, List.get?_append hi]
      have hjeq : j = st2.sccs.length := by omega
      have hcjP : cj = C ++ [v] := by
        rw [hjeq] at hcj
        rw [List.get?_append_right (le_refl _)] at hcj
        simp at hcj
        exact hcj.symm
      have h1 : inEm st2 w := ⟨ci, List.get?_mem hci', hwi⟩
      exact not_mem_stack_of_inEm inv h1 (hPmem w (hcjP ▸ hwj))
    · exfalso
      have hcj' : st2.sccs.get? j = some cj := by
        rw [← hcj, List.get?_append hj]
      have hieq : i = st2.sccs.length := by omega
      have hciP : ci = C ++ [v] := by
        rw [hieq] at hci
        rw [List.get?_append_right (le_refl _)] at hci
        simp at hci
        exact hci.symm
      have h1 : inEm st2 w := ⟨cj, List.get?_mem hcj', hwj⟩
      exact not_mem_stack_of_inEm inv h1 (hPmem w (hciP ▸ hwi))
    · omega
  · intro c hc
    rcases List.mem_append.1 hc with hcold | hcnew
    · exact inv.em_nodup c hcold
    · simp only [List.mem_singleton] at hcnew
      subst hcnew
      refine List.Nodup.sublist ?_ hnodup
      rw [hshape]
      exact List.Sublist.append_left (List.cons_sublist_cons.2 (List.nil_sublist _)) C
  · intro w
    by_cases hw : w ∈ C ++ [v]
    · obtain ⟨d0, hd0, hd3⟩ := hPsome w hw
      have hiss : (data3 w).isSome = true := by rw [hd3]; rfl
      refine iff_of_true hiss (Or.inr ⟨C ++ [v], by simp, hw⟩)
    · rw [show (⟨st2.index, frameFlat F, data3, st2.sccs ++ [C ++ [v]]⟩ : TarjanState).data w
          = st2.data w from hOther w hw]
      rw [inv.vis_iff w]
      constructor
      · intro h
        rcases h with hS | hEm
        · rw [hshape] at hS
          rcases List.mem_append.1 hS with h1 | h1
          · exact absurd (List.mem_append_left [v] h1) hw
          · rcases List.mem_cons.1 h1 with rfl | h2
            · exact absurd hvmemP hw
            · exact Or.inl h2
        · obtain ⟨c, hc, hwc⟩ := hEm
          exact Or.inr ⟨c, List.mem_append_left _ hc, hwc⟩
      · intro h
        rcases h with hS | hEm
        · refine Or.inl ?_
          rw [hshape]
          exact List.mem_append_right _ (List.mem_cons_of_mem _ hS)
        · obtain ⟨c, hc, hwc⟩ := hEm
          rcases List.mem_append.1 hc with h1 | h1
          · exact Or.inr ⟨c, h1, hwc⟩
          · simp only [List.mem_singleton] at h1
            exact absurd (h1 ▸ hwc) hw

theorem isNone_eq_not_isSome (o : Option TarjanData) : o.isNone = !o.isSome := by
  cases o <;> rfl

theorem unvisCount_congr {g : SccGraph} {st st' : TarjanState}
    (h : ∀ n, (st'.data n).isSome = (st.data n).isSome) :
    unvisCount g st' = unvisCount g st := by
  unfold unvisCount
  congr 1
  refine List.filter_congr ?_
  intro x _
  rw [isNone_eq_not_isSome, isNone_eq_not_isSome, h x]

theorem chain_pres {g : SccGraph} {st st' : TarjanState} {A : List (List ℕ × ℕ)}
    (inv : Inv g st) (chain : ChainInv g st A) (hS : st'.S = st.S)
    (pres : ∀ u, (st.data u).isSome → st'.data u = st.data u)
    (hem : ∃ L, st'.sccs = st.sccs ++ L) : ChainInv g st' A := by
  have hmem : ∀ x ∈ st.S, st'.data x = st.data x :=
    fun x hx => pres x (stack_mem_isSome inv hx)
  have hmemflat : ∀ x ∈ frameFlat A, st'.data x = st.data x := by
    intro x hx
    exact hmem x (by rw [chain.shape]; exact hx)
  obtain ⟨L, hL⟩ := hem
  refine ⟨by rw [hS, chain.shape], chain.edges, chain.owner_nodes, ?_, ?_, ?_, chain.seg_reach⟩
  · intro f hf w hwf
    have h := hmemflat w (mem_frameFlat hf (Or.inl hwf))
    rw [lowOf_congr h, idxOf_congr h]
    exact chain.fin_low f hf w hwf
  · intro f hf w hwf s hs
    have h := hmemflat w (mem_frameFlat hf (Or.inl hwf))
    rcases chain.fin_lc1 f hf w hwf s hs with hEm | ⟨hsS, hle⟩
    · exact Or.inl (inEm_mono hL hEm)
    · refine Or.inr ⟨by rw [hS]; exact hsS, ?_⟩
      rw [lowOf_congr h, idxOf_congr (hmem s hsS)]
      exact hle
  · intro f hf w hwf
    have h := hmemflat w (mem_frameFlat hf (Or.inl hwf))
    have h2 := hmemflat f.2 (mem_frameFlat hf (Or.inr rfl))
    rw [lowOf_congr h, lowOf_congr h2]
    exact chain.seg_min f hf w hwf

theorem chainW_of_chain {g : SccGraph} {st : TarjanState} {C : List ℕ} {v : ℕ}
    {F : List (List ℕ × ℕ)} (h : ChainInv g st ((C, v) :: F)) : ChainInvW g st C v F :=
  ⟨h.shape, h.edges, h.owner_nodes, h.fin_low, h.fin_lc1,
    fun f hf => h.seg_min f (List.mem_cons_of_mem _ hf), h.seg_reach⟩

theorem chain_after_child {g : SccGraph} {st st' : TarjanState} {v w : ℕ} {C : List ℕ}
    {F : List (List ℕ × ℕ)} (inv : Inv g st)
    (chain : ChainInv g st ((C, v) :: F)) (hw : w ∈ g.succs v) (hvn : v ∈ g.nodes)
    {dv : TarjanData} (hdv : st.data v = some dv) (post : Post g st st' w) :
    ∃ Cn, ChainInvW g st' Cn v F ∧
      (∀ x ∈ Cn, min (lowOf st v) (lowOf st' w) ≤ lowOf st' x) ∧
      (lowOf st v ≤ lowOf st' w ∨ ∃ t ∈ st'.S, idxOf st' t = lowOf st' w ∧ g.Reach v t) := by
  have hmem : ∀ x ∈ st.S, st'.data x = st.data x :=
    fun x hx => post.frame_pres x (stack_mem_isSome inv hx)
  have hshape0 : st.S = C ++ v :: frameFlat F := by
    rw [chain.shape, frameFlat_cons]
  have hCstack : ∀ x ∈ C, x ∈ st.S := by
    intro x hx
    rw [hshape0]
    exact List.mem_append_left _ hx
  obtain ⟨L, hLem⟩ := post.em_mono
  rcases post.split with ⟨hnotS, hSeq, hEmw, hlowidx⟩ | ⟨Cw, hS, hli, hproc, hmin, hflow, hlc1, hre⟩
  · refine ⟨C, chainW_of_chain (chain_pres inv chain hSeq post.frame_pres post.em_mono), ?_, ?_⟩
    · intro x hx
      rw [lowOf_congr (hmem x (hCstack x hx))]
      exact le_trans (min_le_left _ _)
        (chain.seg_min (C, v) (List.mem_cons_self _ _) x hx)
    · left
      obtain ⟨dw, hdw, hdwi⟩ := post.v_data
      rw [hlowidx, idxOf_eq hdw, hdwi, lowOf_eq hdv]
      exact le_trans (inv.low_le v dv hdv) (le_of_lt (inv.idx_lt v dv hdv))
  · have hSnew : st'.S = (Cw ++ w :: C) ++ v :: frameFlat F := by
      rw [hS, hshape0]
      simp
    have hCnstack : ∀ x, x ∈ Cw ++ w :: C → x ∈ st'.S := by
      intro x hx
      rw [hSnew]
      exact List.mem_append_left _ hx
    refine ⟨Cw ++ w :: C, ⟨?_, ?_, ?_, ?_, ?_, ?_, ?_⟩, ?_, ?_⟩
    · rw [hSnew, frameFlat_cons]
    · cases F with
      | nil => simp
      | cons f0 rest =>
        rw [List.chain'_cons]
        exact ⟨List.chain'_cons.1 chain.edges |>.1, List.chain'_cons.1 chain.edges |>.2⟩
    · intro f hf
      rcases List.mem_cons.1 hf with rfl | hf'
      · exact hvn
      · exact chain.owner_nodes f (List.mem_cons_of_mem _ hf')
    · intro f hf x hxf
      rcases List.mem_cons.1 hf with rfl | hf'
      · rcases List.mem_append.1 hxf with hx | hx
        · exact hflow x hx
        · rcases List.mem_cons.1 hx with rfl | hx'
          · exact hli
          · have h := hmem x (hCstack x hx')
            rw [lowOf_congr h, idxOf_congr h]
            exact chain.fin_low (C, v) (List.mem_cons_self _ _) x hx'
      · have h := hmem x (by
          rw [hshape0]
          refine List.mem_append_right _ (List.mem_cons_of_mem _ ?_)
          exact mem_frameFlat hf' (Or.inl hxf))
        rw [lowOf_congr h, idxOf_congr h]
        exact chain.fin_low f (List.mem_cons_of_mem _ hf') x hxf
    · intro f hf x hxf s hs
      have transfer : (inEm st s ∨ (s ∈ st.S ∧ lowOf st x ≤ idxOf st s)) →
          st'.data x = st.data x →
          inEm st' s ∨ (s ∈ st'.S ∧ lowOf st' x ≤ idxOf st' s) := by
        intro hold hxpres
        rcases hold with hEm | ⟨hsS, hle⟩
        · exact Or.inl (inEm_mono hLem hEm)
        · refine Or.inr ⟨by rw [hS]; exact List.mem_append_right _ (List.mem_cons_of_mem _ hsS), ?_⟩
          rw [lowOf_congr hxpres, idxOf_congr (hmem s hsS)]
          exact hle
      rcases List.mem_cons.1 hf with rfl | hf'
      · rcases List.mem_append.1 hxf with hx | hx
        · exact hlc1 x hx s hs
        · rcases List.mem_cons.1 hx with rfl | hx'
          · exact hproc s hs
          · exact transfer (chain.fin_lc1 (C, v) (List.mem_cons_self _ _) x hx' s hs)
              (hmem x (hCstack x hx'))
      · exact transfer (chain.fin_lc1 f (List.mem_cons_of_mem _ hf') x hxf s hs)
          (hmem x (by
            rw [hshape0]
            exact List.mem_append_right _ (List.mem_cons_of_mem _
              (mem_frameFlat hf' (Or.inl hxf)))))
    · intro f hf x hxf
      have hxflat : x ∈ st.S := by
        rw [hshape0]
        exact List.mem_append_right _ (List.mem_cons_of_mem _ (mem_frameFlat hf (Or.inl hxf)))
      have hoflat : f.2 ∈ st.S := by
        rw [hshape0]
        exact List.mem_append_right _ (List.mem_cons_of_mem _ (mem_frameFlat hf (Or.inr rfl)))
      rw [lowOf_congr (hmem x hxflat), lowOf_congr (hmem f.2 hoflat)]
      exact chain.seg_min f (List.mem_cons_of_mem _ hf) x hxf
    · intro f hf x hxf
      rcases List.mem_cons.1 hf with rfl | hf'
      · rcases List.mem_append.1 hxf with hx | hx
        · exact reach_head ⟨hvn, hw⟩ (hre x hx)
        · rcases List.mem_cons.1 hx with rfl | hx'
          · exact reach_single ⟨hvn, hw⟩
          · exact chain.seg_reach (C, v) (List.mem_cons_self _ _) x hx'
      · exact chain.seg_reach f (List.mem_cons_of_mem _ hf') x hxf
    · intro x hx
      rcases List.mem_append.1 hx with h | h
      · exact le_trans (min_le_right _ _) (hmin x h)
      · rcases List.mem_cons.1 h with rfl | h'
        · exact min_le_right _ _
        · rw [lowOf_congr (hmem x (hCstack x h'))]
          exact le_trans (min_le_left _ _)
            (chain.seg_min (C, v) (List.mem_cons_self _ _) x h')
    · right
      have hwS : w ∈ st'.S := by
        rw [hS]
        exact List.mem_append_right _ (List.mem_cons_self _ _)
      obtain ⟨t, ht, hti, htr⟩ := post.inv.ls w hwS
      exact ⟨t, ht, hti, reach_head ⟨hvn, hw⟩ htr⟩

theorem fold_spec (g : SccGraph) (fuel : ℕ) (rec : TarjanState → ℕ → Option TarjanState)
    (hrec : ∀ st w F2, Pre g st w F2 → unvisCount g st + 1 ≤ fuel →
      ∃ st', rec st w = some st' ∧ Post g st st' w)
    (st0 : TarjanState) (v : ℕ) (F : List (List ℕ × ℕ))
    (hfuel : unvisCount g st0 ≤ fuel) (hvn : v ∈ g.nodes) :
    ∀ (todo processed : List ℕ), g.succs v = processed ++ todo →
      ∀ st, MidInv g st0 v F processed st →
      ∃ st', todo.foldlM (sconnStep g rec v) st = some st' ∧
        MidInv g st0 v F (g.succs v) st' := by
  intro todo
  induction todo with
  | nil =>
    intro processed heq st mid
    rw [List.append_nil] at heq
    refine ⟨st, rfl, ?_⟩
    rw [heq]
    exact mid
  | cons w todo2 ih =>
    intro processed heq st mid
    have hw : w ∈ g.succs v := by
      rw [heq]
      exact List.mem_append_right _ (List.mem_cons_self _ _)
    obtain ⟨C, chain⟩ := mid.chain
    obtain ⟨dv, hdv, hdvi⟩ := mid.vrec
    have heq2 : g.succs v = (processed ++ [w]) ++ todo2 := by
      rw [heq]
      simp
    rw [List.foldlM_cons]
    cases hwd : st.data w with
    | none =>
      have hwv : w ≠ v := fun he => by
        rw [he, hdv] at hwd
        cases hwd
      have pre2 : Pre g st w ((C, v) :: F) :=
        ⟨mid.inv, chain, hwd, succs_mem_nodes hw, fun f0 rest hF => by cases hF; exact hw⟩
      have hfu : unvisCount g st + 1 ≤ fuel := by
        have := mid.mu
        omega
      obtain ⟨st2, hrun2, post⟩ := hrec st w ((C, v) :: F) pre2 hfu
      have hv2 : st2.data v = some dv := by
        rw [post.frame_pres v (by rw [hdv]; rfl)]
        exact hdv
      set X := lowOf st2 w with hX
      set st3 : TarjanState :=
        ⟨st2.index, st2.S, updD st2.data v ⟨dv.index, min dv.lowlink X, dv.onstack⟩,
          st2.sccs⟩ with hst3
      have hstep : sconnStep g rec v st w = some st3 := by
        rw [hst3]
        simp only [sconnStep, hwd, Option.getD_none, hrun2, hv2, Option.getD_some]
        rfl
      obtain ⟨Cn, chainW, hminb, hXb⟩ := chain_after_child mid.inv chain hw hvn hdv post
      have hlowv_eq : lowOf st v = dv.lowlink := lowOf_eq hdv
      have hX2 : dv.lowlink ≤ X ∨ ∃ t ∈ st2.S, idxOf st2 t = X ∧ g.Reach v t := by
        rcases hXb with h | h
        · left
          rw [← hlowv_eq]
          exact h
        · right
          exact h
      have hminC : ∀ x ∈ Cn, min dv.lowlink X ≤ lowOf st2 x := by
        intro x hx
        rw [← hlowv_eq]
        exact hminb x hx
      obtain ⟨inv3, chain3⟩ := minupd_full post.inv chainW hv2 hX2 hminC
      have hd3v : st3.data v = some ⟨dv.index, min dv.lowlink X, dv.onstack⟩ := updD_self _ _ _
      have hd3o : ∀ n, n ≠ v → st3.data n = st2.data n := fun n hn => updD_other _ hn
      have hlow3v : lowOf st3 v = min dv.lowlink X := lowOf_eq hd3v
      have hidx3v : idxOf st3 v = dv.index := by rw [idxOf_eq hd3v]
      have hSmono : ∀ x ∈ st.S, x ∈ st2.S := by
        intro x hx
        rcases post.split with ⟨_, hSeq, _, _⟩ | ⟨Cw, hS, _⟩
        · rw [hSeq]
          exact hx
        · rw [hS]
          exact List.mem_append_right _ (List.mem_cons_of_mem _ hx)
      have hpres2 : ∀ x ∈ st.S, st2.data x = st.data x :=
        fun x hx => post.frame_pres x (stack_mem_isSome mid.inv hx)
      have hidxA : ∀ x ∈ st.S, idxOf st3 x = idxOf st x := by
        intro x hx
        by_cases hxv : x = v
        · subst hxv
          rw [hidx3v, idxOf_eq hdv]
        · rw [idxOf_congr (hd3o x hxv), idxOf_congr (hpres2 x hx)]
      obtain ⟨L2, hL2⟩ := post.em_mono
      obtain ⟨L1, hL1⟩ := mid.emm
      have hem3 : st3.sccs = st.sccs ++ L2 := hL2
      have mid3 : MidInv g st0 v F (processed ++ [w]) st3 := by
        refine ⟨inv3, ⟨Cn, chain3⟩, mid.v0, ⟨_, hd3v, hdvi⟩, ?_, ?_, ?_, ?_, ?_, ?_⟩
        · intro s hs
          rcases List.mem_append.1 hs with hsp | hsw
          · rcases mid.proc s hsp with hEm | ⟨hsS, hle⟩
            · exact Or.inl (inEm_mono hem3 hEm)
            · refine Or.inr ⟨hSmono s hsS, ?_⟩
              rw [hidxA s hsS, hlow3v]
              exact le_trans (min_le_left _ _) (by rw [← hlowv_eq]; exact hle)
          · rcases List.mem_singleton.1 hsw with rfl
            rcases post.split with ⟨hnotS, hSeq, hEmw, _⟩ | ⟨Cw, hS, _⟩
            · exact Or.inl hEmw
            · refine Or.inr ⟨by rw [hS]; exact List.mem_append_right _ (List.mem_cons_self _ _), ?_⟩
              obtain ⟨dw2, hdw2, _⟩ := post.v_data
              rw [hlow3v, idxOf_congr (hd3o s hwv)]
              refine le_trans (min_le_right _ _) ?_
              rw [hX, lowOf_eq hdw2, idxOf_eq hdw2]
              exact post.inv.low_le s dw2 hdw2
        · intro u hu
          have huv : u ≠ v := fun he => by
            rw [he, mid.v0] at hu
            cases hu
          rw [hd3o u huv, post.frame_pres u (by rw [mid.pres u hu]; exact hu), mid.pres u hu]
        · intro u d3 hu0 hud
          by_cases huv : u = v
          · exact huv ▸ reach_refl g v
          · rw [hd3o u huv] at hud
            cases hust : st.data u with
            | some du => exact mid.fresh u du hu0 hust
            | none => exact reach_head ⟨hvn, hw⟩ (post.new_reach u d3 hust hud)
        · exact ⟨L1 ++ L2, by rw [hem3, hL1, List.append_assoc]⟩
        · exact lt_trans mid.idxm post.idx_mono
        · have h1 : unvisCount g st3 = unvisCount g st2 := by
            refine unvisCount_congr ?_
            intro n
            by_cases hn : n = v
            · subst hn
              rw [hd3v, hv2]
              rfl
            · rw [hd3o n hn]
          rw [h1]
          exact lt_trans post.mu_lt mid.mu
      obtain ⟨st', hrun', mid'⟩ := ih (processed ++ [w]) heq2 st3 mid3
      refine ⟨st', ?_, mid'⟩
      rw [hstep]
      simpa using hrun'
    | some dw =>
      have hidxne : ¬ dw.index = 0 := by
        have := mid.inv.idx_pos w dw hwd
        omega
      cases hflag : dw.onstack with
      | true =>
        have hwS : w ∈ st.S := (mid.inv.stack_flag w).2 ⟨dw, hwd, hflag⟩
        set st3 : TarjanState :=
          ⟨st.index, st.S, updD st.data v ⟨dv.index, min dv.lowlink dw.lowlink, dv.onstack⟩,
            st.sccs⟩ with hst3
        have hstep : sconnStep g rec v st w = some st3 := by
          rw [hst3]
          simp only [sconnStep, hwd, Option.getD_some, hdv]
          rw [if_neg hidxne, if_pos hflag]
        have hX2 : dv.lowlink ≤ dw.lowlink ∨
            ∃ t ∈ st.S, idxOf st t = dw.lowlink ∧ g.Reach v t := by
          right
          obtain ⟨t, ht, hti, htr⟩ := mid.inv.ls w hwS
          exact ⟨t, ht, by rw [hti, lowOf_eq hwd], reach_head ⟨hvn, hw⟩ htr⟩
        have hminC : ∀ x ∈ C, min dv.lowlink dw.lowlink ≤ lowOf st x := by
          intro x hx
          refine le_trans (min_le_left _ _) ?_
          rw [← lowOf_eq hdv]
          exact chain.seg_min (C, v) (List.mem_cons_self _ _) x hx
        obtain ⟨inv3, chain3⟩ := minupd_full mid.inv (chainW_of_chain chain) hdv hX2 hminC
        have hd3v : st3.data v = some ⟨dv.index, min dv.lowlink dw.lowlink, dv.onstack⟩ :=
          updD_self _ _ _
        have hd3o : ∀ n, n ≠ v → st3.data n = st.data n := fun n hn => updD_other _ hn
        have hlow3v : lowOf st3 v = min dv.lowlink dw.lowlink := lowOf_eq hd3v
        have hidxA : ∀ x, idxOf st3 x = idxOf st x := by
          intro x
          by_cases hxv : x = v
          · subst hxv
            rw [idxOf_eq hd3v, idxOf_eq hdv]
          · exact idxOf_congr (hd3o x hxv)
        have mid3 : MidInv g st0 v F (processed ++ [w]) st3 := by
          refine ⟨inv3, ⟨C, chain3⟩, mid.v0, ⟨_, hd3v, hdvi⟩, ?_, ?_, ?_, mid.emm, mid.idxm, ?_⟩
          · intro s hs
            rcases List.mem_append.1 hs with hsp | hsw
            · rcases mid.proc s hsp with hEm | ⟨hsS, hle⟩
              · exact Or.inl hEm
              · refine Or.inr ⟨hsS, ?_⟩
                rw [hidxA s, hlow3v]
                exact le_trans (min_le_left _ _) (by rw [← lowOf_eq hdv]; exact hle)
            · rcases List.mem_singleton.1 hsw with rfl
              refine Or.inr ⟨hwS, ?_⟩
              rw [hidxA s, hlow3v, idxOf_eq hwd]
              exact le_trans (min_le_right _ _) (mid.inv.low_le s dw hwd)
          · intro u hu
            have huv : u ≠ v := fun he => by
              rw [he, mid.v0] at hu
              cases hu
            rw [hd3o u huv]
            exact mid.pres u hu
          · intro u d3 hu0 hud
            by_cases huv : u = v
            · exact huv ▸ reach_refl g v
            · rw [hd3o u huv] at hud
              exact mid.fresh u d3 hu0 hud
          · have h1 : unvisCount g st3 = unvisCount g st := by
              refine unvisCount_congr ?_
              intro n
              by_cases hn : n = v
              · subst hn
                rw [hd3v, hdv]
                rfl
              · rw [hd3o n hn]
            rw [h1]
            exact mid.mu
        obtain ⟨st', hrun', mid'⟩ := ih (processed ++ [w]) heq2 st3 mid3
        refine ⟨st', ?_, mid'⟩
        rw [hstep]
        simpa using hrun'
      | false =>
        have hstep : sconnStep g rec v st w = some st := by
          simp only [sconnStep, hwd, Option.getD_some]
          rw [if_neg hidxne, if_neg (by simp [hflag])]
        have hwEm : inEm st w := by
          have hvis := (mid.inv.vis_iff w).1 (by rw [hwd]; rfl)
          rcases hvis with hS | hEm
          · exfalso
            obtain ⟨d2, hd2, hfl2⟩ := (mid.inv.stack_flag w).1 hS
            rw [hwd] at hd2
            cases hd2
            rw [hflag] at hfl2
            cases hfl2
          · exact hEm
        have mid3 : MidInv g st0 v F (processed ++ [w]) st := by
          refine ⟨mid.inv, ⟨C, chain⟩, mid.v0, ⟨dv, hdv, hdvi⟩, ?_, mid.pres, mid.fresh,
            mid.emm, mid.idxm, mid.mu⟩
          intro s hs
          rcases List.mem_append.1 hs with hsp | hsw
          · exact mid.proc s hsp
          · rcases List.mem_singleton.1 hsw with rfl
            exact Or.inl hwEm
        obtain ⟨st', hrun', mid'⟩ := ih (processed ++ [w]) heq2 st mid3
        refine ⟨st', ?_, mid'⟩
        rw [hstep]
        simpa using hrun'

theorem strongconnect_spec (g : SccGraph) :
    ∀ (fuel : ℕ) (st0 : TarjanState) (v : ℕ) (F : List (List ℕ × ℕ)),
      Pre g st0 v F → unvisCount g st0 + 1 ≤ fuel →
      ∃ st', strongconnect g fuel st0 v = some st' ∧ Post g st0 st' v := by
  intro fuel
  induction fuel with
  | zero =>
    intro st0 v F pre hfuel
    omega
  | succ fuel ih =>
    intro st0 v F pre hfuel
    set st1 : TarjanState :=
      ⟨st0.index + 1, v :: st0.S, updD st0.data v ⟨st0.index, st0.index, true⟩, st0.sccs⟩
      with hst1
    obtain ⟨inv1, chain1⟩ := push_spec pre
    have hd1v : st1.data v = some ⟨st0.index, st0.index, true⟩ := updD_self _ _ _
    have hd1o : ∀ n, n ≠ v → st1.data n = st0.data n := fun n hn => updD_other _ hn
    have hmu1 : unvisCount g st1 < unvisCount g st0 := by
      unfold unvisCount
      refine filter_len_strict g.nodes ?_ v pre.vmem ?_ ?_
      · intro a _ hq
        by_cases hav : a = v
        · subst hav
          rw [hd1v] at hq
          simp at hq
        · rw [hd1o a hav] at hq
          exact hq
      · rw [pre.unvis]
        rfl
      · rw [hd1v]
        rfl
    have mid1 : MidInv g st0 v F [] st1 := by
      refine ⟨inv1, ⟨[], chain1⟩, pre.unvis, ⟨⟨st0.index, st0.index, true⟩, hd1v, rfl⟩,
        ?_, ?_, ?_, ⟨[], (List.append_nil _).symm⟩, Nat.lt_succ_self _, hmu1⟩
      · intro s hs
        cases hs
      · intro u hu
        have huv : u ≠ v := fun he => by
          rw [he, pre.unvis] at hu
          cases hu
        exact hd1o u huv
      · intro u d' hu0 hud
        by_cases huv : u = v
        · exact huv ▸ reach_refl g v
        · rw [hd1o u huv, hu0] at hud
          cases hud
    have hfuel' : unvisCount g st0 ≤ fuel := by omega
    obtain ⟨st2, hfold, mid2⟩ :=
      fold_spec g fuel (strongconnect g fuel) ih st0 v F hfuel' pre.vmem
        (g.succs v) [] rfl st1 mid1
    obtain ⟨dv, hdv2, hdvi2⟩ := mid2.vrec
    have hunf : strongconnect g (fuel + 1) st0 v =
        (match List.foldlM (sconnStep g (strongconnect g fuel) v) st1 (g.succs v) with
        | none => none
        | some s2 =>
          let vd := (s2.data v).getD ⟨0, 0, false⟩
          if vd.lowlink = vd.index then
            match popScc v s2.S s2.data with
            | none => none
            | some (scc, rest, data3) =>
              some { s2 with
                S := rest
                data := data3
                sccs := if scc ≠ [] then s2.sccs ++ [scc] else s2.sccs }
          else some s2) := rfl
    by_cases hpop : dv.lowlink = dv.index
    · obtain ⟨C, chain2⟩ := mid2.chain
      obtain ⟨data3, hpopeq, hOther, hSome, hidxP, hlowP, inv4, hvEm⟩ :=
        pop_spec mid2.inv chain2 hdv2 hpop mid2.proc
      set st' : TarjanState := ⟨st2.index, frameFlat F, data3, st2.sccs ++ [C ++ [v]]⟩
        with hst'
      have hshape2 : st2.S = C ++ v :: frameFlat F := by
        rw [chain2.shape, frameFlat_cons]
      have hnodup : st2.S.Nodup := pairwise_lt_nodup mid2.inv.sorted
      have hvF : v ∉ frameFlat F := by
        rw [hshape2] at hnodup
        have h2 := List.Nodup.of_append_right hnodup
        exact (List.nodup_cons.1 h2).1
      obtain ⟨hCidx, hFidx⟩ := sorted_split mid2.inv.sorted hshape2
      have hidx2v : idxOf st2 v = dv.index := by rw [idxOf_eq hdv2]
      refine ⟨st', ?_, ?_⟩
      · rw [hunf, hfold]
        simp only [hdv2, Option.getD_some]
        rw [if_pos hpop, hpopeq]
        have hne : C ++ [v] ≠ [] := by simp
        show some (⟨st2.index, frameFlat F, data3,
            if C ++ [v] ≠ [] then st2.sccs ++ [C ++ [v]] else st2.sccs⟩ : TarjanState)
          = some st'
        rw [if_pos hne]
      · refine ⟨inv4, mid2.idxm, ?_, ?_, ?_, ?_, ?_, ?_⟩
        · intro u hu
          have hpres2 := mid2.pres u hu
          obtain ⟨du, hdu⟩ := Option.isSome_iff_exists.1 hu
          have h2 : st2.data u = some du := by rw [hpres2, hdu]
          have hunotin : u ∉ C ++ [v] := by
            intro hmem
            have hge : st0.index ≤ idxOf st2 u := by
              rcases List.mem_append.1 hmem with h | h
              · have h3 := hCidx u h
                rw [hidx2v, hdvi2] at h3
                omega
              · rw [List.mem_singleton] at h
                subst h
                rw [hidx2v, hdvi2]
            have hlt : idxOf st2 u < st0.index := by
              rw [idxOf_eq h2]
              exact pre.inv.idx_lt u du hdu
            omega
          show data3 u = st0.data u
          rw [hOther u hunotin, hpres2]
        · intro u d' hu0 hud
          replace hud : data3 u = some d' := hud
          have h2 : (st2.data u).isSome := by
            rw [← hSome u, hud]
            rfl
          obtain ⟨d2, hd2⟩ := Option.isSome_iff_exists.1 h2
          exact mid2.fresh u d2 hu0 hd2
        · have hvsome : (data3 v).isSome := by
            rw [hSome v, hdv2]
            rfl
          obtain ⟨dv3, hdv3⟩ := Option.isSome_iff_exists.1 hvsome
          refine ⟨dv3, hdv3, ?_⟩
          have h1 : idxOf st' v = dv3.index := by
            rw [idxOf_eq (show st'.data v = some dv3 from hdv3)]
          rw [← h1, hidxP v, hidx2v, hdvi2]
        · obtain ⟨L, hL⟩ := mid2.emm
          refine ⟨L ++ [C ++ [v]], ?_⟩
          show st2.sccs ++ [C ++ [v]] = st0.sccs ++ (L ++ [C ++ [v]])
          rw [hL, List.append_assoc]
        · have h1 : unvisCount g st' = unvisCount g st2 := unvisCount_congr hSome
          rw [h1]
          exact mid2.mu
        · refine Or.inl ⟨hvF, ?_, hvEm, ?_⟩
          · show frameFlat F = st0.S
            exact pre.chain.shape.symm
          · rw [hlowP v, hidxP v, lowOf_eq hdv2, hidx2v]
            exact hpop
    · obtain ⟨C, chain2⟩ := mid2.chain
      have hlow2v : lowOf st2 v = dv.lowlink := lowOf_eq hdv2
      have hidx2v : idxOf st2 v = dv.index := by rw [idxOf_eq hdv2]
      refine ⟨st2, ?_, ?_⟩
      · rw [hunf, hfold]
        simp only [hdv2, Option.getD_some]
        rw [if_neg hpop]
      · refine ⟨mid2.inv, mid2.idxm, mid2.pres, mid2.fresh, ⟨dv, hdv2, hdvi2⟩, mid2.emm,
          mid2.mu, Or.inr ⟨C, ?_, ?_, mid2.proc, ?_, ?_, ?_, ?_⟩⟩
        · rw [chain2.shape, frameFlat_cons, ← pre.chain.shape]
        · rw [hlow2v, hidx2v]
          exact lt_of_le_of_ne (mid2.inv.low_le v dv hdv2) hpop
        · exact fun w hw => chain2.seg_min (C, v) (List.mem_cons_self _ _) w hw
        · exact fun w hw => chain2.fin_low (C, v) (List.mem_cons_self _ _) w hw
        · exact fun w hw s hs => chain2.fin_lc1 (C, v) (List.mem_cons_self _ _) w hw s hs
        · exact fun w hw => chain2.seg_reach (C, v) (List.mem_cons_self _ _) w hw

theorem init_inv (g : SccGraph) : Inv g ⟨1, [], fun _ => none, []⟩ := by
  refine ⟨le_refl 1, ?_, ?_, ?_, ?_, ?_, ?_, List.Pairwise.nil, ?_, ?_, ?_, ?_, ?_, ?_, ?_, ?_⟩
  · intro v d h
    cases h
  · intro v d h
    cases h
  · intro v d h
    cases h
  · intro v d h
    cases h
  · intro u v du dv h1 h2 h3
    cases h1
  · intro v
    constructor
    · intro h
      cases h
    · rintro ⟨d, hd, h2⟩
      cases hd
  · intro w hw
    cases hw
  · rintro u ⟨c, hc, h2⟩ s hs
    cases hc
  · intro c hc
    cases hc
  · intro c hc
    cases hc
  · intro i j ci cj h1
    simp at h1
  · intro i j ci cj h1
    simp at h1
  · intro c hc
    cases hc
  · intro v
    simp [inEm]

theorem outer_fold_spec (g : SccGraph) (fuel : ℕ) :
    ∀ (todo processed : List ℕ), g.nodes = processed ++ todo →
      ∀ st, Inv g st → st.S = [] → unvisCount g st + 1 ≤ fuel →
      (∀ u ∈ processed, (st.data u).isSome) →
      ∃ st', todo.foldlM (outerStep g fuel) st = some st' ∧ Inv g st' ∧ st'.S = [] ∧
        (∀ u ∈ processed ++ todo, (st'.data u).isSome) := by
  intro todo
  induction todo with
  | nil =>
    intro processed heq st inv hS hfuel hproc
    refine ⟨st, rfl, inv, hS, ?_⟩
    intro u hu
    rw [List.append_nil] at hu
    exact hproc u hu
  | cons v todo2 ih =>
    intro processed heq st inv hS hfuel hproc
    have hvn : v ∈ g.nodes := by
      rw [heq]
      exact List.mem_append_right _ (List.mem_cons_self _ _)
    have heq2 : g.nodes = (processed ++ [v]) ++ todo2 := by
      rw [heq]
      simp
    rw [List.foldlM_cons]
    cases hvd : st.data v with
    | some d =>
      have hne : ¬ d.index = 0 := by
        have := inv.idx_pos v d hvd
        omega
      have hstep : outerStep g fuel st v = some st := by
        simp only [outerStep, hvd]
        rw [if_neg hne]
      have hproc2 : ∀ u ∈ processed ++ [v], (st.data u).isSome := by
        intro u hu
        rcases List.mem_append.1 hu with h | h
        · exact hproc u h
        · rw [List.mem_singleton] at h
          subst h
          rw [hvd]
          rfl
      obtain ⟨st', hrun, inv', hS', hall⟩ := ih (processed ++ [v]) heq2 st inv hS hfuel hproc2
      refine ⟨st', ?_, inv', hS', ?_⟩
      · rw [hstep]
        simpa using hrun
      · intro u hu
        exact hall u (by simpa using hu)
    | none =>
      have chain0 : ChainInv g st [] :=
        ⟨by rw [hS]; rfl, by trivial, fun f hf => absurd hf (List.not_mem_nil f),
         fun f hf => absurd hf (List.not_mem_nil f), fun f hf => absurd hf (List.not_mem_nil f),
         fun f hf => absurd hf (List.not_mem_nil f), fun f hf => absurd hf (List.not_mem_nil f)⟩
      have pre : Pre g st v [] := ⟨inv, chain0, hvd, hvn, fun f0 rest h => by cases h⟩
      obtain ⟨st2, hrun2, post⟩ := strongconnect_spec g fuel st v [] pre hfuel
      have hS2 : st2.S = [] := by
        rcases post.split with ⟨h1, hSeq, h3, h4⟩ | ⟨C, hSeq, hlow, h4, h5, h6, h7, h8⟩
        · rw [hSeq, hS]
        · exfalso
          have hvS2 : v ∈ st2.S := by
            rw [hSeq]
            exact List.mem_append_right _ (List.mem_cons_self _ _)
          obtain ⟨t, htS, hti, htr⟩ := post.inv.ls v hvS2
          have hshape : st2.S = C ++ v :: [] := by rw [hSeq, hS]
          obtain ⟨hCidx, h9⟩ := sorted_split post.inv.sorted hshape
          rw [hshape] at htS
          rcases List.mem_append.1 htS with h | h
          · have h2 := hCidx t h
            omega
          · rw [List.mem_singleton] at h
            subst h
            omega
      have hfuel2 : unvisCount g st2 + 1 ≤ fuel := by
        have := post.mu_lt
        omega
      have hproc2 : ∀ u ∈ processed ++ [v], (st2.data u).isSome := by
        intro u hu
        rcases List.mem_append.1 hu with h | h
        · have h2 := hproc u h
          rw [post.frame_pres u h2]
          exact h2
        · rw [List.mem_singleton] at h
          subst h
          obtain ⟨dv, hdv, h2⟩ := post.v_data
          rw [hdv]
          rfl
      obtain ⟨st', hrun, inv', hS', hall⟩ :=
        ih (processed ++ [v]) heq2 st2 post.inv hS2 hfuel2 hproc2
      refine ⟨st', ?_, inv', hS', ?_⟩
      · have hstep : outerStep g fuel st v = some st2 := by
          simp only [outerStep, hvd]
          exact hrun2
        rw [hstep]
        simpa using hrun
      · intro u hu
        exact hall u (by simpa using hu)

theorem sccsImpl_run (g : SccGraph) :
    ∃ st, List.foldlM (outerStep g (g.nodes.length + 1)) ⟨1, [], fun _ => none, []⟩ g.nodes
        = some st ∧ Inv g st ∧ st.S = [] ∧ ∀ u ∈ g.nodes, (st.data u).isSome := by
  have hfuel : unvisCount g ⟨1, [], fun _ => none, []⟩ + 1 ≤ g.nodes.length + 1 := by
    have h1 : unvisCount g ⟨1, [], (fun _ => none), []⟩ ≤ g.nodes.length := by
      unfold unvisCount
      exact List.length_filter_le _ _
    omega
  obtain ⟨st, hrun, inv, hS, hall⟩ :=
    outer_fold_spec g (g.nodes.length + 1) g.nodes [] rfl ⟨1, [], fun _ => none, []⟩
      (init_inv g) rfl hfuel (fun u hu => absurd hu (List.not_mem_nil u))
  exact ⟨st, hrun, inv, hS, fun u hu => hall u (by simpa using hu)⟩

/-- C7: `sccs` partitions the graph's nodes into its strongly connected
components under the successor relation (referrers plus future σ-edges)
and returns them in topological order: with enough fuel for the Go
recursion, the returned components are nonempty, duplicate-free lists of
nodes covering every node, positionally disjoint, each one exactly a
`SameScc` equivalence class, and whenever a node of component `i` has a
successor in component `j`, component `i` appears no later than `j`. -/
theorem C7_sccs_correct (g : SccGraph) :
    ∃ comps, sccsImpl g (g.nodes.length + 1) = some comps ∧
      (∀ c ∈ comps, c ≠ [] ∧ c.Nodup ∧ ∀ x ∈ c, x ∈ g.nodes) ∧
      (∀ v ∈ g.nodes, ∃ c ∈ comps, v ∈ c) ∧
      (∀ i j ci cj, comps.get? i = some ci → comps.get? j = some cj →
        ∀ x, x ∈ ci → x ∈ cj → i = j) ∧
      (∀ c ∈ comps, ∀ u ∈ c, ∀ w, w ∈ c ↔ g.SameScc u w) ∧
      (∀ i j ci cj, comps.get? i = some ci → comps.get? j = some cj →
        ∀ u ∈ ci, ∀ w ∈ cj, w ∈ g.succs u → i ≤ j) := by
  obtain ⟨st, hrun, inv, hS, hall⟩ := sccsImpl_run g
  have hrev : ∀ i (ci : List ℕ), st.sccs.reverse.get? i = some ci →
      i < st.sccs.length ∧ st.sccs.get? (st.sccs.length - 1 - i) = some ci := by
    intro i ci h
    obtain ⟨hlt, h2⟩ := List.get?_eq_some.1 h
    rw [List.length_reverse] at hlt
    refine ⟨hlt, ?_⟩
    rw [← List.get?_reverse hlt]
    exact h
  refine ⟨st.sccs.reverse, ?_, ?_, ?_, ?_, ?_, ?_⟩
  · have hdef : sccsImpl g (g.nodes.length + 1) =
        (match List.foldlM (outerStep g (g.nodes.length + 1))
            ⟨1, [], fun _ => none, []⟩ g.nodes with
        | none => none
        | some st2 => some st2.sccs.reverse) := rfl
    rw [hdef, hrun]
  · intro c hc
    rw [List.mem_reverse] at hc
    obtain ⟨hne, hscc⟩ := inv.em_scc c hc
    refine ⟨hne, inv.em_nodup c hc, ?_⟩
    intro x hx
    obtain ⟨d, hd, h2⟩ := inv.em_flag c hc x hx
    exact inv.mem_nodes x d hd
  · intro v hv
    have hsome := hall v hv
    rcases (inv.vis_iff v).1 hsome with hvS | hEm
    · rw [hS] at hvS
      cases hvS
    · obtain ⟨c, hc, hvc⟩ := hEm
      exact ⟨c, List.mem_reverse.2 hc, hvc⟩
  · intro i j ci cj hi hj x hxi hxj
    obtain ⟨hilt, hi2⟩ := hrev i ci hi
    obtain ⟨hjlt, hj2⟩ := hrev j cj hj
    have h3 := inv.em_disj _ _ _ _ hi2 hj2 x hxi hxj
    omega
  · intro c hc u hu w
    exact (inv.em_scc c (List.mem_reverse.1 hc)).2 u hu w
  · intro i j ci cj hi hj u hu w hw hsucc
    obtain ⟨hilt, hi2⟩ := hrev i ci hi
    obtain ⟨hjlt, hj2⟩ := hrev j cj hj
    have h3 := inv.em_order _ _ _ _ hi2 hj2 u hu w hw hsucc
    omega

end Vrp
